import Mathlib

/-!
Verification of the QUBO job-shop-scheduling helper module
(`src/toy_cases/jssp/notebooks/helper.py`).

The module builds a QUBO coefficient matrix for a two-machine job-shop
scheduling problem out of four additive penalty passes, extracts a schedule
from a solver's assignment vector, and validates the extracted schedule.

Shallow embedding conventions:
* The QUBO matrix `Q` (a numpy array) is a function `Nat → Nat → ℚ`;
  `Q[i, j] += v` is `addEntry Q i j v`.  Matrix entries and penalty weights
  (Python floats) are modelled as exact rationals.
* The `var_index` dictionary is a partial map `Nat × Nat → Option Nat`.
  A Python subscript `var_index[(k, t)]` raises `KeyError` on a missing key:
  it is modelled as a bind in the `Option` monad, so a whole builder returns
  `none` exactly when the Python function raises.  `var_index.get((k, t))` is
  the `Option` value itself.
* The `task_map` dictionary is an association list (preserving Python's
  insertion iteration order); `task_map[k]` is `List.lookup`.
* Python `sorted(..., key=...)` is a stable sort; `List.insertionSort` is
  stable, hence produces the identical output list.
* Python `round` (banker's rounding, half to even) is `pyRound` below.
-/

namespace JSSP

/-- The QUBO coefficient matrix, indexed by flat variable indices. -/
abbrev Mat := Nat → Nat → ℚ

/-- The `var_index` dictionary: a partial map from (task, start time) to the
flat binary-variable index. -/
abbrev VarIndex := Nat × Nat → Option Nat

/-- One task's info tuple `(job, task_idx, machine, duration)` as stored in
`task_map`. -/
structure TaskInfo where
  job : Nat
  taskIdx : Nat
  machine : Nat
  duration : Nat
deriving DecidableEq, Inhabited

/-- The `task_map` dictionary as an association list in insertion order. -/
abbrev TaskMap := List (Nat × TaskInfo)

/-- `Q[i, j] += v`. -/
def addEntry (Q : Mat) (i j : Nat) (v : ℚ) : Mat :=
  fun a b => if a = i ∧ b = j then Q a b + v else Q a b

/-- A single accumulation `(i, j, v)` meaning `Q[i, j] += v`. -/
abbrev Update := Nat × Nat × ℚ

/-- Apply a sequence of `+=` accumulations in order. -/
def applyUpdates (Q : Mat) (us : List Update) : Mat :=
  us.foldl (fun Q u => addEntry Q u.1 u.2.1 u.2.2) Q

/-- Total contribution of an update list to entry `(a, b)`. -/
def sumAt (us : List Update) (a b : Nat) : ℚ :=
  (us.map (fun u => if u.1 = a ∧ u.2.1 = b then u.2.2 else 0)).sum

/-- Python `range(a, b)`. -/
def rangeFrom (a b : Nat) : List Nat := List.range' a (b - a)

/-! ### The four QUBO builders (translated from helper.py) -/

/-- `apply_unique_start_constraint(Q, var_index, num_tasks, T_max, penalty)`:
for every task `k` and slot `t1`, `Q[i1, i1] -= penalty` (diagonal term), and
for every later slot `t2` in `range(t1+1, T_max)` with `t1 != t2`,
`Q[i1, i2] += penalty`.  Both variable lookups are Python subscripts, so a
missing `(k, t)` key raises (`none`). -/
def apply_unique_start_constraint (Q : Mat) (var_index : VarIndex)
    (num_tasks T_max : Nat) (penalty : ℚ) : Option Mat :=
  (List.range num_tasks).foldlM (fun Q k =>
    (List.range T_max).foldlM (fun Q t1 => do
      let idx_1 ← var_index (k, t1)
      let Q := addEntry Q idx_1 idx_1 (-penalty)
      (rangeFrom (t1 + 1) T_max).foldlM (fun Q t2 =>
        if t1 ≠ t2 then do
          let idx_2 ← var_index (k, t2)
          pure (addEntry Q idx_1 idx_2 penalty)
        else pure Q) Q) Q) Q

/-- `apply_machine_conflict_constraint(Q, var_index, task_map, T_max, penalty)`:
for every ordered pair of distinct same-machine tasks `(k1, k2)` and every
`(t1, t2)` with `0 < t2 - t1 < d1`, `Q[idx_1, idx_2] += penalty`.  The source
reads `idx_1 = var_index[(k1, t1)]` and `idx_2 = var_index[(k2, t2)]` with
Python subscripts (raising on a missing key) and only afterwards tests
`idx_1 is not None and idx_2 is not None`; since a missing key has already
raised by then and present values are ints, that test is always true, so it
does not appear as a branch here. -/
def apply_machine_conflict_constraint (Q : Mat) (var_index : VarIndex)
    (task_map : TaskMap) (T_max : Nat) (penalty : ℚ) : Option Mat :=
  task_map.foldlM (fun Q e1 =>
    task_map.foldlM (fun Q e2 =>
      if e1.1 = e2.1 then pure Q
      else if e1.2.machine ≠ e2.2.machine then pure Q
      else
        (List.range T_max).foldlM (fun Q (t1 : Nat) =>
          (List.range T_max).foldlM (fun Q (t2 : Nat) =>
            if 0 < (t2 : Int) - (t1 : Int) ∧
                (t2 : Int) - (t1 : Int) < (e1.2.duration : Int) then do
              let idx_1 ← var_index (e1.1, t1)
              let idx_2 ← var_index (e2.1, t2)
              pure (addEntry Q idx_1 idx_2 penalty)
            else pure Q) Q) Q) Q) Q

/-- Keys not yet seen are appended, seen keys are skipped: the iteration
order of the keys of a Python dict built by repeated insertion
(`job_tasks` / `by_job`). -/
def dedupFirstAux (seen : List Nat) : List Nat → List Nat
  | [] => []
  | x :: xs =>
    if x ∈ seen then dedupFirstAux seen xs
    else x :: dedupFirstAux (x :: seen) xs

/-- First-occurrence deduplication. -/
def dedupFirst (l : List Nat) : List Nat := dedupFirstAux [] l

/-- The keys of `job_tasks` built by `apply_precedence_constraint`, in
insertion order. -/
def jobsOf (task_map : TaskMap) : List Nat :=
  dedupFirst (task_map.map (fun e => e.2.job))

/-- `job_tasks[j]`: the task ids of job `j` in `task_map` iteration order. -/
def groupOf (task_map : TaskMap) (j : Nat) : List Nat :=
  (task_map.filter (fun e => e.2.job = j)).map (fun e => e.1)

/-- Adjacent pairs `(l[i], l[i+1])` for `i in range(len(l) - 1)`. -/
def adjPairs {α : Type} (l : List α) : List (α × α) := l.zip l.tail

/-- `apply_precedence_constraint(Q, var_index, task_map, T_max, penalty)`:
group tasks by job, sort each group (by task id), and for each consecutive
pair `(k1, k2)` penalize every `(t1, t2)` with `t2 < t1 + duration_1`.  Both
variable lookups use `var_index.get`, so missing keys are skipped.
`task_map[k1]` always succeeds because `k1` is a key of `task_map`; the
`getD default` can therefore never fall back. -/
def apply_precedence_constraint (Q : Mat) (var_index : VarIndex)
    (task_map : TaskMap) (T_max : Nat) (penalty : ℚ) : Mat :=
  (jobsOf task_map).foldl (fun Q j =>
    (adjPairs ((groupOf task_map j).insertionSort (fun a b => a ≤ b))).foldl
      (fun Q kk =>
        let duration_1 := ((task_map.lookup kk.1).getD default).duration
        (List.range T_max).foldl (fun Q t1 =>
          (List.range T_max).foldl (fun Q t2 =>
            if t2 < t1 + duration_1 then
              match var_index (kk.1, t1), var_index (kk.2, t2) with
              | some idx_1, some idx_2 => addEntry Q idx_1 idx_2 penalty
              | _, _ => Q
            else Q) Q) Q) Q) Q

/-- `apply_makespan_objective(Q, var_index, task_map, num_tasks, T_max,
weight)`: for every task `k < num_tasks` and slot `t`,
`Q[idx, idx] += weight * (t + duration)`.  `task_map[k][3]` and
`var_index[(k, t)]` are Python subscripts (raising on a missing key). -/
def apply_makespan_objective (Q : Mat) (var_index : VarIndex)
    (task_map : TaskMap) (num_tasks T_max : Nat) (weight : ℚ) : Option Mat :=
  (List.range num_tasks).foldlM (fun Q k => do
    let info ← task_map.lookup k
    (List.range T_max).foldlM (fun Q t => do
      let idx ← var_index (k, t)
      pure (addEntry Q idx idx (weight * ((t : ℚ) + (info.duration : ℚ))))) Q) Q

/-! ### Schedule extraction and validators -/

/-- One schedule record
`{task, job, task_idx, machine, start, duration, end}`. -/
structure SchedRec where
  task : Nat
  job : Nat
  taskIdx : Nat
  machine : Nat
  start : Nat
  duration : Nat
  end_ : Nat
deriving DecidableEq, Inhabited

/-- Python `round` on an exact rational value: round half to even. -/
def pyRound (x : ℚ) : Int :=
  let f := Int.floor x
  let r := x - (f : ℚ)
  if r < 1 / 2 then f
  else if 1 / 2 < r then f + 1
  else if f % 2 = 0 then f else f + 1

/-- The record appended for task `k` (with info `info`) at start `t`. -/
def mkRec (k t : Nat) (info : TaskInfo) : SchedRec :=
  { task := k, job := info.job, taskIdx := info.taskIdx,
    machine := info.machine, start := t, duration := info.duration,
    end_ := t + info.duration }

/-- `extract_schedule_from_result(result, var_index, task_map, num_tasks,
T_max)`: for each task `k` and each slot `t` (in increasing order), if
`round(result[idx]) == 1` append a record; finally sort by start time.
`var_index[(k, t)]` and `task_map[k]` are Python subscripts. -/
def extract_schedule_from_result (result : Nat → ℚ) (var_index : VarIndex)
    (task_map : TaskMap) (num_tasks T_max : Nat) : Option (List SchedRec) := do
  let schedule ← (List.range num_tasks).foldlM (fun sched k =>
    (List.range T_max).foldlM (fun sched t => do
      let idx ← var_index (k, t)
      if pyRound (result idx) = 1 then do
        let info ← task_map.lookup k
        pure (sched ++ [mkRec k t info])
      else pure sched) sched) ([] : List SchedRec)
  pure (schedule.insertionSort (fun a b => a.start ≤ b.start))

/-- `compute_makespan(schedule)`: `max(task["end"] for task in schedule)`.
Python `max` raises on an empty sequence, modelled by `none`. -/
def compute_makespan (schedule : List SchedRec) : Option Nat :=
  match schedule.map (fun t => t.end_) with
  | [] => none
  | e :: es => some (es.foldl max e)

/-- `check_machine_conflicts(schedule)`: for each machine in `{0, 1}`, sort
that machine's tasks by start time and flag each adjacent pair whose earlier
end exceeds the later start. -/
def check_machine_conflicts (schedule : List SchedRec) :
    List (SchedRec × SchedRec) :=
  [0, 1].foldl (fun conflicts m =>
    conflicts ++
      (adjPairs ((schedule.filter (fun t => t.machine = m)).insertionSort
          (fun a b => a.start ≤ b.start))).filter
        (fun pr => pr.2.start < pr.1.end_)) []

/-- `check_precedence_violations(schedule)`: group by job (insertion order),
sort each group by `task_idx`, flag each adjacent pair whose predecessor end
exceeds the successor start. -/
def check_precedence_violations (schedule : List SchedRec) :
    List (SchedRec × SchedRec) :=
  (dedupFirst (schedule.map (fun t => t.job))).foldl (fun violations j =>
    violations ++
      (adjPairs ((schedule.filter (fun t => t.job = j)).insertionSort
          (fun a b => a.taskIdx ≤ b.taskIdx))).filter
        (fun pr => pr.2.start < pr.1.end_)) []

/-! ### Generic machinery: accumulation as update lists -/

theorem applyUpdates_nil (Q : Mat) : applyUpdates Q [] = Q := rfl

theorem applyUpdates_cons (Q : Mat) (u : Update) (us : List Update) :
    applyUpdates Q (u :: us) = applyUpdates (addEntry Q u.1 u.2.1 u.2.2) us := rfl

theorem applyUpdates_append (Q : Mat) (us vs : List Update) :
    applyUpdates Q (us ++ vs) = applyUpdates (applyUpdates Q us) vs :=
  List.foldl_append ..

theorem applyUpdates_append2 (Q : Mat) (us vs : List Update) :
    applyUpdates (applyUpdates Q us) vs = applyUpdates Q (us ++ vs) :=
  (applyUpdates_append Q us vs).symm

theorem sumAt_nil (a b : Nat) : sumAt [] a b = 0 := rfl

theorem sumAt_cons (u : Update) (us : List Update) (a b : Nat) :
    sumAt (u :: us) a b =
      (if u.1 = a ∧ u.2.1 = b then u.2.2 else 0) + sumAt us a b := by
  simp [sumAt]

theorem sumAt_append (us vs : List Update) (a b : Nat) :
    sumAt (us ++ vs) a b = sumAt us a b + sumAt vs a b := by
  simp [sumAt]

theorem sumAt_flatMap {α : Type} (l : List α) (f : α → List Update) (a b : Nat) :
    sumAt (l.flatMap f) a b = (l.map (fun x => sumAt (f x) a b)).sum := by
  induction l with
  | nil => rfl
  | cons x xs ih => simp [List.flatMap_cons, sumAt_append, ih]

theorem sumAt_single (i j : Nat) (v : ℚ) (a b : Nat) :
    sumAt [(i, j, v)] a b = if i = a ∧ j = b then v else 0 := by
  simp [sumAt]

/-- The value of an entry after a sequence of accumulations. -/
theorem applyUpdates_apply (Q : Mat) (us : List Update) (a b : Nat) :
    applyUpdates Q us a b = Q a b + sumAt us a b := by
  induction us generalizing Q with
  | nil => simp [applyUpdates, sumAt]
  | cons u us ih =>
    rw [applyUpdates_cons, ih, sumAt_cons, addEntry]
    by_cases h : a = u.1 ∧ b = u.2.1
    · obtain ⟨h1, h2⟩ := h
      simp [h1, h2]
      ring
    · have h2 : ¬(u.1 = a ∧ u.2.1 = b) := by
        intro hc
        exact h ⟨hc.1.symm, hc.2.symm⟩
      simp only [if_neg h, if_neg h2]
      ring

theorem sum_map_zero {α : Type} (l : List α) (g : α → ℚ)
    (h : ∀ x ∈ l, g x = 0) : (l.map g).sum = 0 := by
  induction l with
  | nil => rfl
  | cons x xs ih =>
    simp only [List.map_cons, List.sum_cons, h x (List.mem_cons_self x xs),
      zero_add]
    exact ih (fun y hy => h y (List.mem_cons_of_mem x hy))

theorem sum_map_single {α : Type} (l : List α) (g : α → ℚ) (x0 : α)
    (hnd : l.Nodup) (hmem : x0 ∈ l) (h : ∀ x ∈ l, x ≠ x0 → g x = 0) :
    (l.map g).sum = g x0 := by
  induction l with
  | nil => cases hmem
  | cons x xs ih =>
    rcases List.mem_cons.mp hmem with h0 | h0
    · subst h0
      simp only [List.map_cons, List.sum_cons]
      have hz : (xs.map g).sum = 0 := by
        refine sum_map_zero xs g (fun y hy => ?_)
        have hne : y ≠ x0 := by
          intro he
          subst he
          exact (List.nodup_cons.mp hnd).1 hy
        exact h y (List.mem_cons_of_mem x0 hy) hne
      rw [hz, add_zero]
    · have hne : x ≠ x0 := by
        intro he
        subst he
        exact (List.nodup_cons.mp hnd).1 h0
      simp only [List.map_cons, List.sum_cons, h x (List.mem_cons_self x xs) hne,
        zero_add]
      exact ih (List.nodup_cons.mp hnd).2 h0
        (fun y hy => h y (List.mem_cons_of_mem x hy))

/-- A `foldlM` in the `Option` monad whose body performs the accumulations
`h x` on the state (and always succeeds on the elements of `l`) is the
one-shot application of all accumulations in order. -/
theorem foldlM_collect {α σ υ : Type} (op : σ → List υ → σ)
    (hop : ∀ (s : σ) (a b : List υ), op (op s a) b = op s (a ++ b))
    (hop0 : ∀ s : σ, op s [] = s)
    (l : List α) (body : σ → α → Option σ) (h : α → List υ)
    (hb : ∀ (s : σ) (x : α), x ∈ l → body s x = some (op s (h x))) (s : σ) :
    l.foldlM body s = some (op s (l.flatMap h)) := by
  induction l generalizing s with
  | nil => simp [hop0]
  | cons x xs ih =>
    rw [List.foldlM_cons, hb s x (List.mem_cons_self x xs)]
    show xs.foldlM body (op s (h x)) = _
    rw [ih (fun s y hy => hb s y (List.mem_cons_of_mem x hy)) (op s (h x))]
    rw [List.flatMap_cons, ← hop]

/-- A `foldlM` in the `Option` monad fails as soon as one iteration fails
unconditionally. -/
theorem foldlM_none {α σ : Type} (l : List α) (body : σ → α → Option σ)
    (x : α) (hx : x ∈ l) (hbad : ∀ s : σ, body s x = none) (s : σ) :
    l.foldlM body s = none := by
  induction l generalizing s with
  | nil => cases hx
  | cons y ys ih =>
    rw [List.foldlM_cons]
    cases hyx : body s y with
    | none => rfl
    | some s2 =>
      have hmem : x ∈ ys := by
        rcases List.mem_cons.mp hx with he | hm
        · subst he
          rw [hbad s] at hyx
          cases hyx
        · exact hm
      show ys.foldlM body s2 = none
      exact ih hmem s2

/-- Pure analogue of `foldlM_collect` for `apply_precedence_constraint`. -/
theorem foldl_collect {α σ υ : Type} (op : σ → List υ → σ)
    (hop : ∀ (s : σ) (a b : List υ), op (op s a) b = op s (a ++ b))
    (hop0 : ∀ s : σ, op s [] = s)
    (l : List α) (body : σ → α → σ) (h : α → List υ)
    (hb : ∀ (s : σ) (x : α), x ∈ l → body s x = op s (h x)) (s : σ) :
    l.foldl body s = op s (l.flatMap h) := by
  induction l generalizing s with
  | nil => simp [hop0]
  | cons x xs ih =>
    rw [List.foldl_cons, hb s x (List.mem_cons_self x xs),
      ih (fun s y hy => hb s y (List.mem_cons_of_mem x hy)),
      List.flatMap_cons, ← hop]

theorem mem_rangeFrom {a b t : Nat} : t ∈ rangeFrom a b ↔ a ≤ t ∧ t < b := by
  unfold rangeFrom
  rw [List.mem_range']
  constructor
  · rintro ⟨i, hi, rfl⟩
    omega
  · rintro ⟨h1, h2⟩
    exact ⟨t - a, by omega, by omega⟩

theorem nodup_rangeFrom (a b : Nat) : (rangeFrom a b).Nodup := by
  unfold rangeFrom
  exact List.nodup_range' a (b - a)

theorem mem_dedupFirstAux {l seen : List Nat} {a : Nat} :
    a ∈ dedupFirstAux seen l ↔ a ∈ l ∧ a ∉ seen := by
  induction l generalizing seen with
  | nil => simp [dedupFirstAux]
  | cons x xs ih =>
    rw [dedupFirstAux]
    by_cases hx : x ∈ seen
    · rw [if_pos hx, ih]
      constructor
      · rintro ⟨h1, h2⟩
        exact ⟨List.mem_cons_of_mem x h1, h2⟩
      · rintro ⟨h1, h2⟩
        rcases List.mem_cons.mp h1 with rfl | h1
        · exact absurd hx h2
        · exact ⟨h1, h2⟩
    · rw [if_neg hx]
      by_cases hax : a = x
      · subst hax
        simp [hx]
      · rw [List.mem_cons]
        constructor
        · rintro (rfl | h1)
          · exact absurd rfl hax
          · obtain ⟨h1, h2⟩ := ih.mp h1
            refine ⟨List.mem_cons_of_mem x h1, fun hc => h2 ?_⟩
            exact List.mem_cons_of_mem x hc
        · rintro ⟨h1, h2⟩
          rcases List.mem_cons.mp h1 with rfl | h1
          · exact absurd rfl hax
          · refine Or.inr (ih.mpr ⟨h1, fun hc => ?_⟩)
            rcases List.mem_cons.mp hc with rfl | hc
            · exact hax rfl
            · exact h2 hc

theorem mem_dedupFirst {l : List Nat} {a : Nat} :
    a ∈ dedupFirst l ↔ a ∈ l := by
  rw [dedupFirst, mem_dedupFirstAux]
  simp

theorem nodup_dedupFirstAux (l : List Nat) : ∀ seen : List Nat,
    (dedupFirstAux seen l).Nodup := by
  induction l with
  | nil =>
    intro seen
    simp [dedupFirstAux]
  | cons x xs ih =>
    intro seen
    rw [dedupFirstAux]
    by_cases hx : x ∈ seen
    · rw [if_pos hx]
      exact ih seen
    · rw [if_neg hx, List.nodup_cons]
      refine ⟨fun hmem => ?_, ih (x :: seen)⟩
      exact (mem_dedupFirstAux.mp hmem).2 (List.mem_cons_self x seen)

theorem nodup_dedupFirst (l : List Nat) : (dedupFirst l).Nodup :=
  nodup_dedupFirstAux l []

theorem mem_of_mem_adjPairs {α : Type} {l : List α} {p : α × α}
    (h : p ∈ adjPairs l) : p.1 ∈ l ∧ p.2 ∈ l := by
  unfold adjPairs at h
  have h1 := List.of_mem_zip h
  exact ⟨h1.1, List.mem_of_mem_tail h1.2⟩

theorem adjPairs_rel {α : Type} {R : α → α → Prop} {l : List α}
    (hp : l.Pairwise R) {p : α × α} (h : p ∈ adjPairs l) : R p.1 p.2 := by
  induction l with
  | nil => cases h
  | cons x xs ih =>
    cases xs with
    | nil => cases h
    | cons y ys =>
      have hstep : adjPairs (x :: y :: ys) = (x, y) :: adjPairs (y :: ys) := rfl
      rw [hstep] at h
      rcases List.mem_cons.mp h with he | hm
      · subst he
        exact (List.pairwise_cons.mp hp).1 y (List.mem_cons_self y ys)
      · exact ih (List.pairwise_cons.mp hp).2 hm

theorem adjPairs_nodup {α : Type} {l : List α} (h : l.Nodup) :
    (adjPairs l).Nodup := by
  induction l with
  | nil => exact List.nodup_nil
  | cons x xs ih =>
    cases xs with
    | nil => exact List.nodup_nil
    | cons y ys =>
      have hstep : adjPairs (x :: y :: ys) = (x, y) :: adjPairs (y :: ys) := rfl
      rw [hstep, List.nodup_cons]
      refine ⟨fun hmem => ?_, ih (List.nodup_cons.mp h).2⟩
      have := (mem_of_mem_adjPairs hmem).1
      exact (List.nodup_cons.mp h).1 this

/-! ### Well-formedness hypotheses on the variable-index mapping -/

/-- The variable index of `(k, t)` (meaningful when present). -/
def vIdx (v : VarIndex) (k t : Nat) : Nat := (v (k, t)).getD 0

theorem vIdx_spec {v : VarIndex} {k t : Nat} (h : (v (k, t)).isSome) :
    v (k, t) = some (vIdx v k t) := by
  obtain ⟨i, hi⟩ := Option.isSome_iff_exists.mp h
  rw [hi, vIdx, hi, Option.getD_some]

/-- `var_index` has an entry for every `(task, time)` in the rectangle. -/
def TotalOn (v : VarIndex) (K T : Nat) : Prop :=
  ∀ k, k < K → ∀ t, t < T → (v (k, t)).isSome

/-- All `(task, time)` candidates of the rectangle `K × T`. -/
def candPairs (K T : Nat) : List (Nat × Nat) :=
  (List.range K).flatMap (fun k => (List.range T).map (fun t => (k, t)))

theorem mem_candPairs {K T k t : Nat} :
    (k, t) ∈ candPairs K T ↔ k < K ∧ t < T := by
  simp [candPairs, List.mem_flatMap, List.mem_range]

/-- On the rectangle, present variable indices identify their `(task, time)`
pair uniquely. -/
def InjOn (v : VarIndex) (K T : Nat) : Prop :=
  ∀ a ∈ candPairs K T, ∀ b ∈ candPairs K T,
    (v a).isSome → v a = v b → a = b

theorem InjOn_elim {v : VarIndex} {K T : Nat} (h : InjOn v K T)
    {k t k2 t2 : Nat} (hk : k < K) (ht : t < T) (hk2 : k2 < K) (ht2 : t2 < T)
    (hs : (v (k, t)).isSome) (he : v (k, t) = v (k2, t2)) :
    k = k2 ∧ t = t2 := by
  have h2 := h (k, t) (mem_candPairs.mpr ⟨hk, ht⟩) (k2, t2)
    (mem_candPairs.mpr ⟨hk2, ht2⟩) hs he
  exact ⟨congrArg Prod.fst h2, congrArg Prod.snd h2⟩

instance (v : VarIndex) (K T : Nat) : Decidable (TotalOn v K T) := by
  unfold TotalOn
  infer_instance

instance (v : VarIndex) (K T : Nat) : Decidable (InjOn v K T) := by
  unfold InjOn
  infer_instance

/-- The keys of `task_map` in iteration order. -/
def keys (tm : TaskMap) : List Nat := tm.map (fun e => e.1)

/-- `var_index` has an entry for every `(task, time)` with the task a key of
`task_map`. -/
def TotalOnKeys (v : VarIndex) (tm : TaskMap) (T : Nat) : Prop :=
  ∀ k ∈ keys tm, ∀ t, t < T → (v (k, t)).isSome

instance (v : VarIndex) (tm : TaskMap) (T : Nat) :
    Decidable (TotalOnKeys v tm T) := by
  unfold TotalOnKeys
  infer_instance

/-- All `(task, time)` pairs with the task a key of `task_map`. -/
def keyPairs (tm : TaskMap) (T : Nat) : List (Nat × Nat) :=
  (keys tm).flatMap (fun k => (List.range T).map (fun t => (k, t)))

theorem mem_keyPairs {tm : TaskMap} {T k t : Nat} :
    (k, t) ∈ keyPairs tm T ↔ k ∈ keys tm ∧ t < T := by
  simp [keyPairs, List.mem_flatMap, List.mem_range]

/-- Present variable indices over the keys of `task_map` identify their
`(task, time)` pair uniquely. -/
def InjOnKeys (v : VarIndex) (tm : TaskMap) (T : Nat) : Prop :=
  ∀ a ∈ keyPairs tm T, ∀ b ∈ keyPairs tm T,
    (v a).isSome → v a = v b → a = b

instance (v : VarIndex) (tm : TaskMap) (T : Nat) :
    Decidable (InjOnKeys v tm T) := by
  unfold InjOnKeys
  infer_instance

theorem InjOnKeys_elim {v : VarIndex} {tm : TaskMap} {T : Nat}
    (h : InjOnKeys v tm T) {k t k2 t2 : Nat} (hk : k ∈ keys tm) (ht : t < T)
    (hk2 : k2 ∈ keys tm) (ht2 : t2 < T) (hs : (v (k, t)).isSome)
    (he : v (k, t) = v (k2, t2)) : k = k2 ∧ t = t2 := by
  have h2 := h (k, t) (mem_keyPairs.mpr ⟨hk, ht⟩) (k2, t2)
    (mem_keyPairs.mpr ⟨hk2, ht2⟩) hs he
  exact ⟨congrArg Prod.fst h2, congrArg Prod.snd h2⟩

theorem mem_keys_of_mem {tm : TaskMap} {e : Nat × TaskInfo} (h : e ∈ tm) :
    e.1 ∈ keys tm :=
  List.mem_map_of_mem _ h

/-- In a dict (unique keys), the info stored under a key is unique. -/
theorem key_unique {tm : TaskMap} (hnd : (keys tm).Nodup) {k : Nat}
    {a b : TaskInfo} (ha : (k, a) ∈ tm) (hb : (k, b) ∈ tm) : a = b := by
  have he := List.inj_on_of_nodup_map hnd ha hb rfl
  exact congrArg Prod.snd he

/-! ### The update lists performed by each builder -/

/-- The off-diagonal accumulations of the unique-start builder for task `k`
and first slot `t1`. -/
def usUniqueInner (v : VarIndex) (k t1 T : Nat) (p : ℚ) : List Update :=
  (rangeFrom (t1 + 1) T).flatMap (fun t2 =>
    if t1 ≠ t2 then [(vIdx v k t1, vIdx v k t2, p)] else [])

/-- The accumulations of the unique-start builder for task `k`. -/
def usUniqueBlock (v : VarIndex) (k T : Nat) (p : ℚ) : List Update :=
  (List.range T).flatMap (fun t1 =>
    (vIdx v k t1, vIdx v k t1, -p) :: usUniqueInner v k t1 T p)

/-- The `+=` accumulations performed by `apply_unique_start_constraint`, in
program order. -/
def usUnique (v : VarIndex) (K T : Nat) (p : ℚ) : List Update :=
  (List.range K).flatMap (fun k => usUniqueBlock v k T p)

/-- When every candidate variable has an index, the unique-start builder
succeeds and performs exactly the accumulations `usUnique`. -/
theorem unique_eq_updates (Q : Mat) (v : VarIndex) (K T : Nat) (p : ℚ)
    (htot : TotalOn v K T) :
    apply_unique_start_constraint Q v K T p =
      some (applyUpdates Q (usUnique v K T p)) := by
  unfold apply_unique_start_constraint usUnique usUniqueBlock usUniqueInner
  refine foldlM_collect applyUpdates applyUpdates_append2 applyUpdates_nil
    _ _ _ ?_ Q
  intro Q k hk
  rw [List.mem_range] at hk
  refine foldlM_collect applyUpdates applyUpdates_append2 applyUpdates_nil
    _ _ _ ?_ Q
  intro Q t1 ht1
  rw [List.mem_range] at ht1
  have h1 := htot k hk t1 ht1
  obtain ⟨i1, hi1⟩ := Option.isSome_iff_exists.mp h1
  have hv1 : vIdx v k t1 = i1 := by rw [vIdx, hi1, Option.getD_some]
  show (v (k, t1)).bind _ = _
  rw [hi1, Option.some_bind, applyUpdates_cons]
  simp only [hv1]
  refine foldlM_collect applyUpdates applyUpdates_append2 applyUpdates_nil
    _ _ _ ?_ _
  intro Q t2 ht2
  rw [mem_rangeFrom] at ht2
  have hne : t1 ≠ t2 := by omega
  rw [if_pos hne, if_pos hne]
  have h2 := htot k hk t2 ht2.2
  obtain ⟨i2, hi2⟩ := Option.isSome_iff_exists.mp h2
  have hv2 : vIdx v k t2 = i2 := by rw [vIdx, hi2, Option.getD_some]
  show (v (k, t2)).bind _ = _
  rw [hi2, Option.some_bind, hv2]
  rfl

/-- Under totality and injectivity on the rectangle, a candidate whose
stored index coincides with the index of `(k2, t2)` is `(k2, t2)`. -/
theorem vIdx_ident {v : VarIndex} {K T : Nat} (htot : TotalOn v K T)
    (hinj : InjOn v K T) {k t k2 t2 i : Nat} (hk : k < K) (ht : t < T)
    (hk2 : k2 < K) (ht2 : t2 < T) (hv : v (k2, t2) = some i)
    (he : vIdx v k t = i) : k = k2 ∧ t = t2 := by
  have hs := htot k hk t ht
  exact InjOn_elim hinj hk ht hk2 ht2 hs (by rw [vIdx_spec hs, he, hv])

theorem vIdx_of_some {v : VarIndex} {k t i : Nat} (hv : v (k, t) = some i) :
    vIdx v k t = i := by
  rw [vIdx, hv, Option.getD_some]

/-- C3 (claim): `apply_unique_start_constraint` subtracts `penalty` from the
diagonal entry of every candidate `(task, slot)` variable, and adds
`+penalty` to the off-diagonal entry of every unordered pair of distinct
slots of the same task, populated once at the (earlier slot, later slot)
position.  Stated for every task count, horizon and penalty, for a variable
indexing that is defined on all candidates (otherwise the Python code
raises) and assigns distinct indices to distinct candidates. -/
theorem unique_start_characterization (Q : Mat) (v : VarIndex) (K T : Nat)
    (p : ℚ) (htot : TotalOn v K T) (hinj : InjOn v K T) :
    ∃ M, apply_unique_start_constraint Q v K T p = some M ∧
      (∀ k t i, k < K → t < T → v (k, t) = some i → M i i = Q i i - p) ∧
      (∀ k t1 t2 i1 i2, k < K → t1 < t2 → t2 < T → v (k, t1) = some i1 →
        v (k, t2) = some i2 → M i1 i2 = Q i1 i2 + p) := by
  refine ⟨applyUpdates Q (usUnique v K T p),
    unique_eq_updates Q v K T p htot, ?_, ?_⟩
  · -- diagonal entries
    intro k0 t0 i0 hk0 ht0 hv0
    have key : ∀ k t, k < K → t < T → vIdx v k t = i0 → k = k0 ∧ t = t0 :=
      fun k t hk ht he => vIdx_ident htot hinj hk ht hk0 ht0 hv0 he
    rw [applyUpdates_apply]
    have hsum : sumAt (usUnique v K T p) i0 i0 = -p := by
      rw [usUnique, sumAt_flatMap]
      rw [sum_map_single (List.range K)
        (fun k => sumAt (usUniqueBlock v k T p) i0 i0) k0 (List.nodup_range K)
        (List.mem_range.mpr hk0) ?_]
      · -- the block of task k0 contributes -p
        rw [usUniqueBlock, sumAt_flatMap]
        rw [sum_map_single (List.range T)
          (fun t1 => sumAt ((vIdx v k0 t1, vIdx v k0 t1, -p) ::
            usUniqueInner v k0 t1 T p) i0 i0) t0 (List.nodup_range T)
          (List.mem_range.mpr ht0) ?_]
        · rw [sumAt_cons]
          have hd : vIdx v k0 t0 = i0 := vIdx_of_some hv0
          rw [if_pos ⟨hd, hd⟩]
          have hz : sumAt (usUniqueInner v k0 t0 T p) i0 i0 = 0 := by
            rw [usUniqueInner, sumAt_flatMap]
            refine sum_map_zero _ _ (fun t2 ht2 => ?_)
            rw [mem_rangeFrom] at ht2
            rw [if_pos (show t0 ≠ t2 by omega), sumAt_single]
            refine if_neg (fun hc => ?_)
            have := (key k0 t2 hk0 ht2.2 hc.2).2
            omega
          rw [hz, add_zero]
        · -- other slots of task k0 contribute nothing to (i0, i0)
          intro t1 ht1 hne
          rw [List.mem_range] at ht1
          beta_reduce
          rw [sumAt_cons]
          have h1 : ¬(vIdx v k0 t1 = i0 ∧ vIdx v k0 t1 = i0) := by
            rintro ⟨hc, -⟩
            exact hne (key k0 t1 hk0 ht1 hc).2
          rw [if_neg h1, zero_add, usUniqueInner, sumAt_flatMap]
          refine sum_map_zero _ _ (fun t2 ht2 => ?_)
          rw [mem_rangeFrom] at ht2
          rw [if_pos (show t1 ≠ t2 by omega), sumAt_single]
          refine if_neg (fun hc => ?_)
          exact hne (key k0 t1 hk0 ht1 hc.1).2
      · -- other tasks contribute nothing to (i0, i0)
        intro k hk hne
        rw [List.mem_range] at hk
        beta_reduce
        rw [usUniqueBlock, sumAt_flatMap]
        refine sum_map_zero _ _ (fun t1 ht1 => ?_)
        rw [List.mem_range] at ht1
        rw [sumAt_cons]
        have h1 : ¬(vIdx v k t1 = i0 ∧ vIdx v k t1 = i0) := by
          rintro ⟨hc, -⟩
          exact hne (key k t1 hk ht1 hc).1
        rw [if_neg h1, zero_add, usUniqueInner, sumAt_flatMap]
        refine sum_map_zero _ _ (fun t2 ht2 => ?_)
        rw [mem_rangeFrom] at ht2
        rw [if_pos (show t1 ≠ t2 by omega), sumAt_single]
        refine if_neg (fun hc => ?_)
        exact hne (key k t1 hk ht1 hc.1).1
    rw [hsum]
    ring
  · -- off-diagonal entries: the (earlier, later) pair of the same task
    intro k0 ta tb i1 i2 hk0 htab htb hv1 hv2
    have hta : ta < T := lt_trans htab htb
    have key1 : ∀ k t, k < K → t < T → vIdx v k t = i1 → k = k0 ∧ t = ta :=
      fun k t hk ht he => vIdx_ident htot hinj hk ht hk0 hta hv1 he
    have key2 : ∀ k t, k < K → t < T → vIdx v k t = i2 → k = k0 ∧ t = tb :=
      fun k t hk ht he => vIdx_ident htot hinj hk ht hk0 htb hv2 he
    rw [applyUpdates_apply]
    have hsum : sumAt (usUnique v K T p) i1 i2 = p := by
      rw [usUnique, sumAt_flatMap]
      rw [sum_map_single (List.range K)
        (fun k => sumAt (usUniqueBlock v k T p) i1 i2) k0 (List.nodup_range K)
        (List.mem_range.mpr hk0) ?_]
      · rw [usUniqueBlock, sumAt_flatMap]
        rw [sum_map_single (List.range T)
          (fun t1 => sumAt ((vIdx v k0 t1, vIdx v k0 t1, -p) ::
            usUniqueInner v k0 t1 T p) i1 i2) ta (List.nodup_range T)
          (List.mem_range.mpr hta) ?_]
        · rw [sumAt_cons]
          have h1 : ¬(vIdx v k0 ta = i1 ∧ vIdx v k0 ta = i2) := by
            rintro ⟨-, hc⟩
            have := (key2 k0 ta hk0 hta hc).2
            omega
          rw [if_neg h1, zero_add, usUniqueInner, sumAt_flatMap]
          rw [sum_map_single (rangeFrom (ta + 1) T)
            (fun t2 => sumAt (if ta ≠ t2 then
              [(vIdx v k0 ta, vIdx v k0 t2, p)] else []) i1 i2) tb
            (nodup_rangeFrom _ _) (mem_rangeFrom.mpr ⟨by omega, htb⟩) ?_]
          · rw [if_pos (show ta ≠ tb by omega), sumAt_single,
              if_pos ⟨vIdx_of_some hv1, vIdx_of_some hv2⟩]
          · intro t2 ht2 hne
            rw [mem_rangeFrom] at ht2
            beta_reduce
            rw [if_pos (show ta ≠ t2 by omega), sumAt_single]
            refine if_neg (fun hc => ?_)
            exact hne (key2 k0 t2 hk0 ht2.2 hc.2).2
        · intro t1 ht1 hne
          rw [List.mem_range] at ht1
          beta_reduce
          rw [sumAt_cons]
          have h1 : ¬(vIdx v k0 t1 = i1 ∧ vIdx v k0 t1 = i2) := by
            rintro ⟨hc, -⟩
            exact hne (key1 k0 t1 hk0 ht1 hc).2
          rw [if_neg h1, zero_add, usUniqueInner, sumAt_flatMap]
          refine sum_map_zero _ _ (fun t2 ht2 => ?_)
          rw [mem_rangeFrom] at ht2
          rw [if_pos (show t1 ≠ t2 by omega), sumAt_single]
          refine if_neg (fun hc => ?_)
          exact hne (key1 k0 t1 hk0 ht1 hc.1).2
      · intro k hk hne
        rw [List.mem_range] at hk
        beta_reduce
        rw [usUniqueBlock, sumAt_flatMap]
        refine sum_map_zero _ _ (fun t1 ht1 => ?_)
        rw [List.mem_range] at ht1
        rw [sumAt_cons]
        have h1 : ¬(vIdx v k t1 = i1 ∧ vIdx v k t1 = i2) := by
          rintro ⟨hc, -⟩
          exact hne (key1 k t1 hk ht1 hc).1
        rw [if_neg h1, zero_add, usUniqueInner, sumAt_flatMap]
        refine sum_map_zero _ _ (fun t2 ht2 => ?_)
        rw [mem_rangeFrom] at ht2
        rw [if_pos (show t1 ≠ t2 by omega), sumAt_single]
        refine if_neg (fun hc => ?_)
        exact hne (key1 k t1 hk ht1 hc.1).1
    rw [hsum]

/-! ### A concrete instance (two same-machine tasks of one job) -/

/-- Concrete `task_map`: task 0 = (job 0, op 0, machine 0, duration 2),
task 1 = (job 0, op 1, machine 0, duration 1). -/
def tmEx : TaskMap := [(0, ⟨0, 0, 0, 2⟩), (1, ⟨0, 1, 0, 1⟩)]

/-- Concrete total injective `var_index` for 2 tasks and horizon 3. -/
def vEx : VarIndex := fun kt =>
  if kt.1 < 2 ∧ kt.2 < 3 then some (3 * kt.1 + kt.2) else none

/-- The all-zero starting matrix allocated by the orchestrator. -/
def zeroMat : Mat := fun _ _ => 0

/-! ### The machine-conflict builder as an update list -/

theorem vIdx_identK {v : VarIndex} {tm : TaskMap} {T : Nat}
    (htot : TotalOnKeys v tm T) (hinj : InjOnKeys v tm T) {k t k2 t2 i : Nat}
    (hk : k ∈ keys tm) (ht : t < T) (hk2 : k2 ∈ keys tm) (ht2 : t2 < T)
    (hv : v (k2, t2) = some i) (he : vIdx v k t = i) : k = k2 ∧ t = t2 := by
  have hs := htot k hk t ht
  exact InjOnKeys_elim hinj hk ht hk2 ht2 hs (by rw [vIdx_spec hs, he, hv])

/-- The time-pair accumulations of the machine-conflict builder for ordered
tasks `k1, k2` with `d1` the duration of `k1`. -/
def usMachineTimes (v : VarIndex) (k1 k2 d1 T : Nat) (p : ℚ) : List Update :=
  (List.range T).flatMap (fun t1 =>
    (List.range T).flatMap (fun t2 =>
      if 0 < (t2 : Int) - (t1 : Int) ∧ (t2 : Int) - (t1 : Int) < (d1 : Int) then
        [(vIdx v k1 t1, vIdx v k2 t2, p)]
      else []))

/-- The accumulations of the machine-conflict builder for the ordered pair
of task entries `(e1, e2)`. -/
def usMachinePair (v : VarIndex) (e1 e2 : Nat × TaskInfo) (T : Nat) (p : ℚ) :
    List Update :=
  if e1.1 = e2.1 then []
  else if e1.2.machine ≠ e2.2.machine then []
  else usMachineTimes v e1.1 e2.1 e1.2.duration T p

/-- The `+=` accumulations performed by `apply_machine_conflict_constraint`,
in program order. -/
def usMachine (v : VarIndex) (tm : TaskMap) (T : Nat) (p : ℚ) : List Update :=
  tm.flatMap (fun e1 => tm.flatMap (fun e2 => usMachinePair v e1 e2 T p))

/-- When every `(key, time)` pair has a variable index, the machine-conflict
builder succeeds and performs exactly the accumulations `usMachine`. -/
theorem machine_eq_updates (Q : Mat) (v : VarIndex) (tm : TaskMap) (T : Nat)
    (p : ℚ) (htot : TotalOnKeys v tm T) :
    apply_machine_conflict_constraint Q v tm T p =
      some (applyUpdates Q (usMachine v tm T p)) := by
  unfold apply_machine_conflict_constraint usMachine usMachinePair
    usMachineTimes
  refine foldlM_collect applyUpdates applyUpdates_append2 applyUpdates_nil
    _ _ _ ?_ Q
  intro Q e1 he1
  refine foldlM_collect applyUpdates applyUpdates_append2 applyUpdates_nil
    _ _ _ ?_ Q
  intro Q e2 he2
  by_cases hk : e1.1 = e2.1
  · rw [if_pos hk, if_pos hk]
    rfl
  rw [if_neg hk, if_neg hk]
  by_cases hm : e1.2.machine ≠ e2.2.machine
  · rw [if_pos hm, if_pos hm]
    rfl
  rw [if_neg hm, if_neg hm]
  refine foldlM_collect applyUpdates applyUpdates_append2 applyUpdates_nil
    _ _ _ ?_ Q
  intro Q t1 ht1
  rw [List.mem_range] at ht1
  refine foldlM_collect applyUpdates applyUpdates_append2 applyUpdates_nil
    _ _ _ ?_ Q
  intro Q t2 ht2
  rw [List.mem_range] at ht2
  by_cases hc : 0 < (t2 : Int) - (t1 : Int) ∧
      (t2 : Int) - (t1 : Int) < (e1.2.duration : Int)
  · rw [if_pos hc, if_pos hc]
    obtain ⟨i1, hi1⟩ := Option.isSome_iff_exists.mp
      (htot e1.1 (mem_keys_of_mem he1) t1 ht1)
    obtain ⟨i2, hi2⟩ := Option.isSome_iff_exists.mp
      (htot e2.1 (mem_keys_of_mem he2) t2 ht2)
    show (v (e1.1, t1)).bind _ = _
    rw [hi1, Option.some_bind]
    show (v (e2.1, t2)).bind _ = _
    rw [hi2, Option.some_bind, vIdx_of_some hi1, vIdx_of_some hi2]
    rfl
  · rw [if_neg hc, if_neg hc]
    rfl

theorem sumAt_usMachinePair_zero {v : VarIndex} {T : Nat} {p : ℚ}
    {e1 e2 : Nat × TaskInfo} {a b : Nat}
    (h : ∀ t1 t2, t1 < T → t2 < T →
      ¬(vIdx v e1.1 t1 = a ∧ vIdx v e2.1 t2 = b)) :
    sumAt (usMachinePair v e1 e2 T p) a b = 0 := by
  unfold usMachinePair
  by_cases hk : e1.1 = e2.1
  · rw [if_pos hk, sumAt_nil]
  rw [if_neg hk]
  by_cases hm : e1.2.machine ≠ e2.2.machine
  · rw [if_pos hm, sumAt_nil]
  rw [if_neg hm]
  unfold usMachineTimes
  rw [sumAt_flatMap]
  refine sum_map_zero _ _ (fun t1 ht1 => ?_)
  rw [List.mem_range] at ht1
  beta_reduce
  rw [sumAt_flatMap]
  refine sum_map_zero _ _ (fun t2 ht2 => ?_)
  rw [List.mem_range] at ht2
  beta_reduce
  by_cases hc : 0 < (t2 : Int) - (t1 : Int) ∧
      (t2 : Int) - (t1 : Int) < ((e1.2.duration : Nat) : Int)
  · rw [if_pos hc, sumAt_single]
    exact if_neg (h t1 t2 ht1 ht2)
  · rw [if_neg hc, sumAt_nil]

theorem sumAt_usMachineTimes_at {v : VarIndex} {T : Nat} {p : ℚ}
    {k1 k2 d1 t1 t2 i1 i2 : Nat} (ht1 : t1 < T) (ht2 : t2 < T)
    (hv1 : vIdx v k1 t1 = i1) (hv2 : vIdx v k2 t2 = i2)
    (hu1 : ∀ t, t < T → vIdx v k1 t = i1 → t = t1)
    (hu2 : ∀ t, t < T → vIdx v k2 t = i2 → t = t2) :
    sumAt (usMachineTimes v k1 k2 d1 T p) i1 i2 =
      if 0 < (t2 : Int) - (t1 : Int) ∧
          (t2 : Int) - (t1 : Int) < (d1 : Int) then p else 0 := by
  unfold usMachineTimes
  rw [sumAt_flatMap]
  rw [sum_map_single (List.range T)
    (fun ta => sumAt ((List.range T).flatMap (fun tb =>
      if 0 < (tb : Int) - (ta : Int) ∧ (tb : Int) - (ta : Int) < (d1 : Int)
      then [(vIdx v k1 ta, vIdx v k2 tb, p)] else [])) i1 i2) t1
    (List.nodup_range T) (List.mem_range.mpr ht1) ?_]
  · rw [sumAt_flatMap]
    rw [sum_map_single (List.range T)
      (fun tb => sumAt (if 0 < (tb : Int) - (t1 : Int) ∧
        (tb : Int) - (t1 : Int) < (d1 : Int)
        then [(vIdx v k1 t1, vIdx v k2 tb, p)] else []) i1 i2) t2
      (List.nodup_range T) (List.mem_range.mpr ht2) ?_]
    · by_cases hc : 0 < (t2 : Int) - (t1 : Int) ∧
          (t2 : Int) - (t1 : Int) < (d1 : Int)
      · rw [if_pos hc, if_pos hc, sumAt_single, if_pos ⟨hv1, hv2⟩]
      · rw [if_neg hc, if_neg hc, sumAt_nil]
    · intro tb htb hne
      rw [List.mem_range] at htb
      beta_reduce
      by_cases hc : 0 < (tb : Int) - (t1 : Int) ∧
          (tb : Int) - (t1 : Int) < (d1 : Int)
      · rw [if_pos hc, sumAt_single]
        refine if_neg (fun hcc => hne (hu2 tb htb hcc.2))
      · rw [if_neg hc, sumAt_nil]
  · intro ta hta hne
    rw [List.mem_range] at hta
    beta_reduce
    rw [sumAt_flatMap]
    refine sum_map_zero _ _ (fun tb htb => ?_)
    rw [List.mem_range] at htb
    beta_reduce
    by_cases hc : 0 < (tb : Int) - (ta : Int) ∧
        (tb : Int) - (ta : Int) < (d1 : Int)
    · rw [if_pos hc, sumAt_single]
      refine if_neg (fun hcc => hne (hu1 ta hta hcc.1))
    · rw [if_neg hc, sumAt_nil]

/-- The total contribution of the machine-conflict pass to the entry
`(i1, i2)` of the variable pair `((k1, t1), (k2, t2))`. -/
theorem sumAt_usMachine {v : VarIndex} {tm : TaskMap} {T : Nat} {p : ℚ}
    (htot : TotalOnKeys v tm T) (hinj : InjOnKeys v tm T)
    (hnd : (keys tm).Nodup) {k1 k2 : Nat} {info1 info2 : TaskInfo}
    {t1 t2 i1 i2 : Nat} (h1 : (k1, info1) ∈ tm) (h2 : (k2, info2) ∈ tm)
    (ht1 : t1 < T) (ht2 : t2 < T) (hv1 : v (k1, t1) = some i1)
    (hv2 : v (k2, t2) = some i2) :
    sumAt (usMachine v tm T p) i1 i2 =
      if k1 ≠ k2 ∧ info1.machine = info2.machine ∧
          0 < (t2 : Int) - (t1 : Int) ∧
          (t2 : Int) - (t1 : Int) < (info1.duration : Int) then p else 0 := by
  have hk1m : k1 ∈ keys tm := mem_keys_of_mem h1
  have hk2m : k2 ∈ keys tm := mem_keys_of_mem h2
  have keyA : ∀ k t, k ∈ keys tm → t < T → vIdx v k t = i1 → k = k1 ∧ t = t1 :=
    fun k t hk ht he => vIdx_identK htot hinj hk ht hk1m ht1 hv1 he
  have keyB : ∀ k t, k ∈ keys tm → t < T → vIdx v k t = i2 → k = k2 ∧ t = t2 :=
    fun k t hk ht he => vIdx_identK htot hinj hk ht hk2m ht2 hv2 he
  have hndtm : tm.Nodup := List.Nodup.of_map _ hnd
  have entry_eq : ∀ e : Nat × TaskInfo, e ∈ tm → ∀ k info, e.1 = k →
      (k, info) ∈ tm → e = (k, info) := by
    intro e he k info hek hkm
    have hmem : (k, e.2) ∈ tm := by
      rw [← hek]
      exact (Prod.mk.eta).symm ▸ he
    have := key_unique hnd hmem hkm
    rw [← hek] at hkm ⊢
    rw [Prod.ext_iff]
    exact ⟨rfl, this⟩
  rw [usMachine, sumAt_flatMap]
  rw [sum_map_single tm (fun e1 => sumAt (tm.flatMap
    (fun e2 => usMachinePair v e1 e2 T p)) i1 i2) (k1, info1) hndtm h1 ?_]
  · rw [sumAt_flatMap]
    rw [sum_map_single tm (fun e2 => sumAt
      (usMachinePair v (k1, info1) e2 T p) i1 i2) (k2, info2) hndtm h2 ?_]
    · unfold usMachinePair
      dsimp only
      by_cases hk : k1 = k2
      · rw [if_pos hk, sumAt_nil, if_neg (fun hc => hc.1 hk)]
      rw [if_neg hk]
      by_cases hm : info1.machine ≠ info2.machine
      · rw [if_pos hm, sumAt_nil, if_neg (fun hc => hm hc.2.1)]
      rw [if_neg hm]
      push_neg at hm
      have hu1 : ∀ t, t < T → vIdx v k1 t = i1 → t = t1 :=
        fun t ht he => (keyA k1 t hk1m ht he).2
      have hu2 : ∀ t, t < T → vIdx v k2 t = i2 → t = t2 :=
        fun t ht he => (keyB k2 t hk2m ht he).2
      rw [sumAt_usMachineTimes_at ht1 ht2 (vIdx_of_some hv1)
        (vIdx_of_some hv2) hu1 hu2]
      by_cases hw : 0 < (t2 : Int) - (t1 : Int) ∧
          (t2 : Int) - (t1 : Int) < (info1.duration : Int)
      · rw [if_pos hw, if_pos ⟨hk, hm, hw⟩]
      · rw [if_neg hw, if_neg (fun hc => hw hc.2.2)]
    · intro e2 he2 hne
      beta_reduce
      refine sumAt_usMachinePair_zero (fun ta tb hta htb hc => ?_)
      exact hne (entry_eq e2 he2 k2 info2
        (keyB e2.1 tb (mem_keys_of_mem he2) htb hc.2).1 h2)
  · intro e he hne
    beta_reduce
    rw [sumAt_flatMap]
    refine sum_map_zero _ _ (fun e2 he2 => ?_)
    beta_reduce
    refine sumAt_usMachinePair_zero (fun ta tb hta htb hc => ?_)
    exact hne (entry_eq e he k1 info1
      (keyA e.1 ta (mem_keys_of_mem he) hta hc.1).1 h1)

/-- C4 (claim): for every pair of distinct tasks on the same machine, the
machine-conflict builder adds exactly `+penalty` to the variable-pair entry
for every start-time pair `(t1, t2)` with `0 < t2 - t1 < d1` (`d1` the first
task's duration), adds nothing for `t2 - t1 >= d1` or `t2 - t1 <= 0`, and
pairs of tasks on different machines or with `k1 == k2` receive no
contribution.  All cases are captured by the single conditional below. -/
theorem machine_conflict_characterization (Q : Mat) (v : VarIndex)
    (tm : TaskMap) (T : Nat) (p : ℚ) (htot : TotalOnKeys v tm T)
    (hinj : InjOnKeys v tm T) (hnd : (keys tm).Nodup)
    (k1 k2 : Nat) (info1 info2 : TaskInfo) (t1 t2 i1 i2 : Nat)
    (h1 : (k1, info1) ∈ tm) (h2 : (k2, info2) ∈ tm)
    (ht1 : t1 < T) (ht2 : t2 < T)
    (hv1 : v (k1, t1) = some i1) (hv2 : v (k2, t2) = some i2) :
    ∃ M, apply_machine_conflict_constraint Q v tm T p = some M ∧
      M i1 i2 = Q i1 i2 +
        (if k1 ≠ k2 ∧ info1.machine = info2.machine ∧
            0 < (t2 : Int) - (t1 : Int) ∧
            (t2 : Int) - (t1 : Int) < (info1.duration : Int) then p else 0) := by
  refine ⟨applyUpdates Q (usMachine v tm T p),
    machine_eq_updates Q v tm T p htot, ?_⟩
  rw [applyUpdates_apply,
    sumAt_usMachine htot hinj hnd h1 h2 ht1 ht2 hv1 hv2]

/-- Witness instantiating `machine_conflict_characterization` on the
concrete instance: tasks 0 and 1 share machine 0, `d1 = 2`, and the pair
`(t1, t2) = (0, 1)` lies in the conflict window. -/
theorem machine_conflict_characterization_witness :
    ∃ M, apply_machine_conflict_constraint zeroMat vEx tmEx 3 1 = some M ∧
      M 0 4 = zeroMat 0 4 +
        (if 0 ≠ 1 ∧ (⟨0, 0, 0, 2⟩ : TaskInfo).machine =
            (⟨0, 1, 0, 1⟩ : TaskInfo).machine ∧
            0 < ((1 : Nat) : Int) - ((0 : Nat) : Int) ∧
            ((1 : Nat) : Int) - ((0 : Nat) : Int) <
              (((⟨0, 0, 0, 2⟩ : TaskInfo).duration : Nat) : Int)
          then 1 else 0) :=
  machine_conflict_characterization zeroMat vEx tmEx 3 1 (by decide)
    (by decide) (by decide) 0 1 ⟨0, 0, 0, 2⟩ ⟨0, 1, 0, 1⟩ 0 1 0 4
    (by decide) (by decide) (by decide) (by decide) (by decide) (by decide)

/-! ### The makespan objective as an update list -/

/-- The accumulations of the makespan pass for task `k` of duration `d`. -/
def usMakespanBlock (v : VarIndex) (k d T : Nat) (w : ℚ) : List Update :=
  (List.range T).flatMap (fun t =>
    [(vIdx v k t, vIdx v k t, w * ((t : ℚ) + (d : ℚ)))])

/-- The `+=` accumulations performed by `apply_makespan_objective`, in
program order. -/
def usMakespan (v : VarIndex) (tm : TaskMap) (K T : Nat) (w : ℚ) :
    List Update :=
  (List.range K).flatMap (fun k =>
    usMakespanBlock v k (((tm.lookup k).getD default).duration) T w)

/-- When `task_map` has every task below `num_tasks` and every candidate has
a variable index, the makespan pass succeeds and performs exactly the
accumulations `usMakespan`. -/
theorem makespan_eq_updates (Q : Mat) (v : VarIndex) (tm : TaskMap)
    (K T : Nat) (w : ℚ) (htot : TotalOn v K T)
    (hlk : ∀ k, k < K → (tm.lookup k).isSome) :
    apply_makespan_objective Q v tm K T w =
      some (applyUpdates Q (usMakespan v tm K T w)) := by
  unfold apply_makespan_objective usMakespan usMakespanBlock
  refine foldlM_collect applyUpdates applyUpdates_append2 applyUpdates_nil
    _ _ _ ?_ Q
  intro Q k hk
  rw [List.mem_range] at hk
  obtain ⟨info, hinfo⟩ := Option.isSome_iff_exists.mp (hlk k hk)
  show (tm.lookup k).bind _ = _
  rw [hinfo, Option.some_bind, Option.getD_some]
  refine foldlM_collect applyUpdates applyUpdates_append2 applyUpdates_nil
    _ _ _ ?_ Q
  intro Q t ht
  rw [List.mem_range] at ht
  obtain ⟨i, hi⟩ := Option.isSome_iff_exists.mp (htot k hk t ht)
  show (v (k, t)).bind _ = _
  rw [hi, Option.some_bind, vIdx_of_some hi]
  rfl

/-- The makespan pass touches only diagonal entries. -/
theorem sumAt_usMakespan_off {v : VarIndex} {tm : TaskMap} {K T : Nat}
    {w : ℚ} {a b : Nat} (hab : a ≠ b) :
    sumAt (usMakespan v tm K T w) a b = 0 := by
  unfold usMakespan usMakespanBlock
  rw [sumAt_flatMap]
  refine sum_map_zero _ _ (fun k hk => ?_)
  beta_reduce
  rw [sumAt_flatMap]
  refine sum_map_zero _ _ (fun t ht => ?_)
  beta_reduce
  rw [sumAt_single]
  refine if_neg (fun hc => hab ?_)
  rw [← hc.1, ← hc.2]

/-- The total contribution of the makespan pass to the diagonal entry of the
variable of candidate `(k, t)`. -/
theorem sumAt_usMakespan_diag {v : VarIndex} {tm : TaskMap} {K T : Nat}
    {w : ℚ} (htot : TotalOn v K T) (hinj : InjOn v K T) {k t i : Nat}
    (hk : k < K) (ht : t < T) (hv : v (k, t) = some i) :
    sumAt (usMakespan v tm K T w) i i =
      w * ((t : ℚ) + ((((tm.lookup k).getD default).duration : Nat) : ℚ)) := by
  have key : ∀ k2 t2, k2 < K → t2 < T → vIdx v k2 t2 = i → k2 = k ∧ t2 = t :=
    fun k2 t2 hk2 ht2 he => vIdx_ident htot hinj hk2 ht2 hk ht hv he
  unfold usMakespan usMakespanBlock
  rw [sumAt_flatMap]
  rw [sum_map_single (List.range K) (fun k2 => sumAt ((List.range T).flatMap
    (fun t2 => [(vIdx v k2 t2, vIdx v k2 t2,
      w * ((t2 : ℚ) + ((((tm.lookup k2).getD default).duration : Nat) : ℚ)))]))
    i i) k (List.nodup_range K) (List.mem_range.mpr hk) ?_]
  · rw [sumAt_flatMap]
    rw [sum_map_single (List.range T) (fun t2 => sumAt
      [(vIdx v k t2, vIdx v k t2,
        w * ((t2 : ℚ) + ((((tm.lookup k).getD default).duration : Nat) : ℚ)))]
      i i) t (List.nodup_range T) (List.mem_range.mpr ht) ?_]
    · rw [sumAt_single, if_pos ⟨vIdx_of_some hv, vIdx_of_some hv⟩]
    · intro t2 ht2 hne
      rw [List.mem_range] at ht2
      beta_reduce
      rw [sumAt_single]
      refine if_neg (fun hc => hne (key k t2 hk ht2 hc.1).2)
  · intro k2 hk2 hne
    rw [List.mem_range] at hk2
    beta_reduce
    rw [sumAt_flatMap]
    refine sum_map_zero _ _ (fun t2 ht2 => ?_)
    rw [List.mem_range] at ht2
    beta_reduce
    rw [sumAt_single]
    refine if_neg (fun hc => hne (key k2 t2 hk2 ht2 hc.1).1)

/-- C6 (claim): for every task and every candidate start time `t`, the
makespan pass adds `weight * (t + duration)` to that variable's diagonal
entry and touches no off-diagonal entry. -/
theorem makespan_characterization (Q : Mat) (v : VarIndex) (tm : TaskMap)
    (K T : Nat) (w : ℚ) (htot : TotalOn v K T) (hinj : InjOn v K T)
    (hlk : ∀ k, k < K → (tm.lookup k).isSome) :
    ∃ M, apply_makespan_objective Q v tm K T w = some M ∧
      (∀ k t i info, k < K → t < T → v (k, t) = some i →
        tm.lookup k = some info →
        M i i = Q i i + w * ((t : ℚ) + (info.duration : ℚ))) ∧
      (∀ a b, a ≠ b → M a b = Q a b) := by
  refine ⟨applyUpdates Q (usMakespan v tm K T w),
    makespan_eq_updates Q v tm K T w htot hlk, ?_, ?_⟩
  · intro k t i info hk ht hv hinfo
    rw [applyUpdates_apply, sumAt_usMakespan_diag htot hinj hk ht hv, hinfo,
      Option.getD_some]
  · intro a b hab
    rw [applyUpdates_apply, sumAt_usMakespan_off hab, add_zero]

/-- Witness instantiating `makespan_characterization` on the concrete
instance: task 0 (duration 2) at start 1 carries diagonal reward
`w * (1 + 2)`, and the off-diagonal entry `(0, 1)` is untouched. -/
theorem makespan_characterization_witness :
    ∃ M, apply_makespan_objective zeroMat vEx tmEx 2 3 1 = some M ∧
      (∀ k t i info, k < 2 → t < 3 → vEx (k, t) = some i →
        tmEx.lookup k = some info →
        M i i = zeroMat i i + 1 * ((t : ℚ) + (info.duration : ℚ))) ∧
      (∀ a b, a ≠ b → M a b = zeroMat a b) :=
  makespan_characterization zeroMat vEx tmEx 2 3 1 (by decide) (by decide)
    (by decide)

/-! ### The precedence builder as an update list -/

theorem lookup_mem {tm : TaskMap} {k : Nat} {info : TaskInfo}
    (h : tm.lookup k = some info) : (k, info) ∈ tm := by
  induction tm with
  | nil => cases h
  | cons e tl ih =>
    obtain ⟨k2, info2⟩ := e
    by_cases hek : k = k2
    · subst hek
      have hb : (k == k) = true := beq_self_eq_true k
      simp only [List.lookup, hb] at h
      have : info2 = info := by injection h
      subst this
      exact List.mem_cons_self _ _
    · have hb : (k == k2) = false := beq_eq_false_iff_ne.mpr hek
      simp only [List.lookup, hb] at h
      exact List.mem_cons_of_mem _ (ih h)

theorem mem_groupOf {tm : TaskMap} {j k : Nat} :
    k ∈ groupOf tm j ↔ ∃ info, (k, info) ∈ tm ∧ info.job = j := by
  unfold groupOf
  simp only [List.mem_map, List.mem_filter, decide_eq_true_eq]
  constructor
  · rintro ⟨e, ⟨hmem, hjob⟩, rfl⟩
    exact ⟨e.2, Prod.mk.eta ▸ hmem, hjob⟩
  · rintro ⟨info, hmem, hjob⟩
    exact ⟨(k, info), ⟨hmem, hjob⟩, rfl⟩

theorem mem_jobsOf {tm : TaskMap} {j : Nat} :
    j ∈ jobsOf tm ↔ ∃ e ∈ tm, e.2.job = j := by
  unfold jobsOf
  rw [mem_dedupFirst]
  simp [List.mem_map]

theorem nodup_groupOf {tm : TaskMap} (hnd : (keys tm).Nodup) (j : Nat) :
    (groupOf tm j).Nodup := by
  have hsub : (groupOf tm j).Sublist (keys tm) := by
    unfold groupOf keys
    exact (List.filter_sublist tm).map (fun e => e.1)
  exact hnd.sublist hsub

/-- The time-pair accumulations of the precedence builder for the
consecutive tasks `k1, k2` with `d1` the duration of `k1`.  A pair whose
variable index is absent contributes nothing (`var_index.get` skip). -/
def usPrecTimes (v : VarIndex) (k1 k2 d1 T : Nat) (p : ℚ) : List Update :=
  (List.range T).flatMap (fun t1 =>
    (List.range T).flatMap (fun t2 =>
      if t2 < t1 + d1 then
        match v (k1, t1), v (k2, t2) with
        | some idx_1, some idx_2 => [(idx_1, idx_2, p)]
        | _, _ => []
      else []))

/-- The accumulations of the precedence builder for one consecutive pair. -/
def usPrecPair (v : VarIndex) (tm : TaskMap) (kk : Nat × Nat) (T : Nat)
    (p : ℚ) : List Update :=
  usPrecTimes v kk.1 kk.2 ((tm.lookup kk.1).getD default).duration T p

/-- The accumulations of the precedence builder for one job. -/
def usPrecJob (v : VarIndex) (tm : TaskMap) (j T : Nat) (p : ℚ) :
    List Update :=
  (adjPairs ((groupOf tm j).insertionSort (fun a b => a ≤ b))).flatMap
    (fun kk => usPrecPair v tm kk T p)

/-- The `+=` accumulations performed by `apply_precedence_constraint`, in
program order. -/
def usPrec (v : VarIndex) (tm : TaskMap) (T : Nat) (p : ℚ) : List Update :=
  (jobsOf tm).flatMap (fun j => usPrecJob v tm j T p)

/-- The precedence builder is total (it never raises on a missing variable
index) and performs exactly the accumulations `usPrec`: only time pairs
whose two variable indices are both present are accumulated. -/
theorem prec_eq_updates (Q : Mat) (v : VarIndex) (tm : TaskMap) (T : Nat)
    (p : ℚ) :
    apply_precedence_constraint Q v tm T p =
      applyUpdates Q (usPrec v tm T p) := by
  unfold apply_precedence_constraint usPrec usPrecJob usPrecPair usPrecTimes
  refine foldl_collect applyUpdates applyUpdates_append2 applyUpdates_nil
    _ _ _ ?_ Q
  intro Q j hj
  refine foldl_collect applyUpdates applyUpdates_append2 applyUpdates_nil
    _ _ _ ?_ Q
  intro Q kk hkk
  show (List.range T).foldl _ Q = _
  refine foldl_collect applyUpdates applyUpdates_append2 applyUpdates_nil
    _ _ _ ?_ Q
  intro Q t1 ht1
  refine foldl_collect applyUpdates applyUpdates_append2 applyUpdates_nil
    _ _ _ ?_ Q
  intro Q t2 ht2
  by_cases hc : t2 < t1 + ((tm.lookup kk.1).getD default).duration
  · rw [if_pos hc, if_pos hc]
    cases hv1 : v (kk.1, t1) with
    | none =>
      cases hv2 : v (kk.2, t2) with
      | none => rfl
      | some i2 => rfl
    | some i1 =>
      cases hv2 : v (kk.2, t2) with
      | none => rfl
      | some i2 => rfl
  · rw [if_neg hc, if_neg hc]
    rfl

theorem sumAt_usPrecTimes_zero {v : VarIndex} {T : Nat} {p : ℚ}
    {ka kb d : Nat} {a b : Nat}
    (h : ∀ ta tb, ta < T → tb < T → v (ka, ta) = some a →
      v (kb, tb) = some b → False) :
    sumAt (usPrecTimes v ka kb d T p) a b = 0 := by
  unfold usPrecTimes
  rw [sumAt_flatMap]
  refine sum_map_zero _ _ (fun ta hta => ?_)
  rw [List.mem_range] at hta
  beta_reduce
  rw [sumAt_flatMap]
  refine sum_map_zero _ _ (fun tb htb => ?_)
  rw [List.mem_range] at htb
  beta_reduce
  by_cases hc : tb < ta + d
  · rw [if_pos hc]
    cases hva : v (ka, ta) with
    | none => rfl
    | some x1 =>
      cases hvb : v (kb, tb) with
      | none => rfl
      | some x2 =>
        rw [sumAt_single]
        refine if_neg (fun hcc => h ta tb hta htb ?_ ?_)
        · rw [hva, hcc.1]
        · rw [hvb, hcc.2]
  · rw [if_neg hc, sumAt_nil]

theorem sumAt_usPrecTimes_at {v : VarIndex} {T : Nat} {p : ℚ}
    {ka kb d t1 t2 i1 i2 : Nat} (ht1 : t1 < T) (ht2 : t2 < T)
    (hv1 : v (ka, t1) = some i1) (hv2 : v (kb, t2) = some i2)
    (hu1 : ∀ t, t < T → v (ka, t) = some i1 → t = t1)
    (hu2 : ∀ t, t < T → v (kb, t) = some i2 → t = t2)
    (hcond : t2 < t1 + d) :
    sumAt (usPrecTimes v ka kb d T p) i1 i2 = p := by
  unfold usPrecTimes
  rw [sumAt_flatMap]
  rw [sum_map_single (List.range T)
    (fun ta => sumAt ((List.range T).flatMap (fun tb =>
      if tb < ta + d then
        match v (ka, ta), v (kb, tb) with
        | some idx_1, some idx_2 => [(idx_1, idx_2, p)]
        | _, _ => []
      else [])) i1 i2) t1 (List.nodup_range T) (List.mem_range.mpr ht1) ?_]
  · rw [sumAt_flatMap]
    rw [sum_map_single (List.range T)
      (fun tb => sumAt (if tb < t1 + d then
        match v (ka, t1), v (kb, tb) with
        | some idx_1, some idx_2 => [(idx_1, idx_2, p)]
        | _, _ => []
      else []) i1 i2) t2 (List.nodup_range T) (List.mem_range.mpr ht2) ?_]
    · rw [if_pos hcond, hv1, hv2, sumAt_single, if_pos ⟨rfl, rfl⟩]
    · intro tb htb hne
      rw [List.mem_range] at htb
      beta_reduce
      by_cases hc : tb < t1 + d
      · rw [if_pos hc]
        cases hva : v (ka, t1) with
        | none => rfl
        | some x1 =>
          cases hvb : v (kb, tb) with
          | none => rfl
          | some x2 =>
            rw [sumAt_single]
            refine if_neg (fun hcc => hne (hu2 tb htb (by rw [hvb, hcc.2])))
      · rw [if_neg hc, sumAt_nil]
  · intro ta hta hne
    rw [List.mem_range] at hta
    beta_reduce
    rw [sumAt_flatMap]
    refine sum_map_zero _ _ (fun tb htb => ?_)
    rw [List.mem_range] at htb
    beta_reduce
    by_cases hc : tb < ta + d
    · rw [if_pos hc]
      cases hva : v (ka, ta) with
      | none => rfl
      | some x1 =>
        cases hvb : v (kb, tb) with
        | none => rfl
        | some x2 =>
          rw [sumAt_single]
          refine if_neg (fun hcc => hne (hu1 ta hta (by rw [hva, hcc.1])))
    · rw [if_neg hc, sumAt_nil]

/-- The total contribution of the precedence pass to the entry `(i1, i2)`
of the variable pair of a consecutive same-job pair `(k1, k2)` at a time
pair in the penalized window: exactly one `+penalty`. -/
theorem sumAt_usPrec {v : VarIndex} {tm : TaskMap} {T : Nat} {p : ℚ}
    (hnd : (keys tm).Nodup) (hinj : InjOnKeys v tm T)
    {j k1 k2 : Nat} {info1 : TaskInfo} {t1 t2 i1 i2 : Nat}
    (hadj : (k1, k2) ∈
      adjPairs ((groupOf tm j).insertionSort (fun a b => a ≤ b)))
    (hlk : tm.lookup k1 = some info1)
    (ht1 : t1 < T) (ht2 : t2 < T) (hcond : t2 < t1 + info1.duration)
    (hv1 : v (k1, t1) = some i1) (hv2 : v (k2, t2) = some i2) :
    sumAt (usPrec v tm T p) i1 i2 = p := by
  have hk1g : k1 ∈ groupOf tm j :=
    (List.perm_insertionSort _ _).mem_iff.mp (mem_of_mem_adjPairs hadj).1
  have hk2g : k2 ∈ groupOf tm j :=
    (List.perm_insertionSort _ _).mem_iff.mp (mem_of_mem_adjPairs hadj).2
  have hmem1 : (k1, info1) ∈ tm := lookup_mem hlk
  obtain ⟨info1b, hmem1b, hjob1b⟩ := mem_groupOf.mp hk1g
  obtain ⟨info2, hmem2, hjob2⟩ := mem_groupOf.mp hk2g
  have hjob1 : info1.job = j := by
    rw [← key_unique hnd hmem1b hmem1]
    exact hjob1b
  have hk1keys : k1 ∈ keys tm := mem_keys_of_mem hmem1
  have hk2keys : k2 ∈ keys tm := mem_keys_of_mem hmem2
  have hj : j ∈ jobsOf tm := mem_jobsOf.mpr ⟨(k1, info1b), hmem1b, hjob1b⟩
  have keyA : ∀ ka ta, ka ∈ keys tm → ta < T → v (ka, ta) = some i1 →
      ka = k1 ∧ ta = t1 := by
    intro ka ta hka hta hva
    exact InjOnKeys_elim hinj hka hta hk1keys ht1 (by rw [hva]; rfl) (by rw [hva, hv1])
  have keyB : ∀ kb tb, kb ∈ keys tm → tb < T → v (kb, tb) = some i2 →
      kb = k2 ∧ tb = t2 := by
    intro kb tb hkb htb hvb
    exact InjOnKeys_elim hinj hkb htb hk2keys ht2 (by rw [hvb]; rfl) (by rw [hvb, hv2])
  rw [usPrec, sumAt_flatMap]
  rw [sum_map_single (jobsOf tm)
    (fun j2 => sumAt (usPrecJob v tm j2 T p) i1 i2) j
    (nodup_dedupFirst _) hj ?_]
  · rw [usPrecJob, sumAt_flatMap]
    have hsortnd :
        ((groupOf tm j).insertionSort (fun a b => a ≤ b)).Nodup :=
      ((List.perm_insertionSort _ _).nodup_iff).mpr (nodup_groupOf hnd j)
    rw [sum_map_single _ (fun kk => sumAt (usPrecPair v tm kk T p) i1 i2)
      (k1, k2) (adjPairs_nodup hsortnd) hadj ?_]
    · rw [usPrecPair]
      dsimp only
      rw [hlk, Option.getD_some]
      refine sumAt_usPrecTimes_at ht1 ht2 hv1 hv2 ?_ ?_ hcond
      · exact fun t ht he => (keyA k1 t hk1keys ht he).2
      · exact fun t ht he => (keyB k2 t hk2keys ht he).2
    · intro kk hkk hne
      beta_reduce
      rw [usPrecPair]
      refine sumAt_usPrecTimes_zero (fun ta tb hta htb hva hvb => ?_)
      have hkk1g : kk.1 ∈ groupOf tm j :=
        (List.perm_insertionSort _ _).mem_iff.mp
          (mem_of_mem_adjPairs hkk).1
      have hkk2g : kk.2 ∈ groupOf tm j :=
        (List.perm_insertionSort _ _).mem_iff.mp
          (mem_of_mem_adjPairs hkk).2
      obtain ⟨infa, hma, -⟩ := mem_groupOf.mp hkk1g
      obtain ⟨infb, hmb, -⟩ := mem_groupOf.mp hkk2g
      have e1 := (keyA kk.1 ta (mem_keys_of_mem hma) hta hva).1
      have e2 := (keyB kk.2 tb (mem_keys_of_mem hmb) htb hvb).1
      exact hne (by rw [Prod.ext_iff]; exact ⟨e1, e2⟩)
  · intro j2 hj2 hne
    beta_reduce
    rw [usPrecJob, sumAt_flatMap]
    refine sum_map_zero _ _ (fun kk hkk => ?_)
    beta_reduce
    rw [usPrecPair]
    refine sumAt_usPrecTimes_zero (fun ta tb hta htb hva hvb => ?_)
    have hkk1g : kk.1 ∈ groupOf tm j2 :=
      (List.perm_insertionSort _ _).mem_iff.mp (mem_of_mem_adjPairs hkk).1
    obtain ⟨infa, hma, hjoba⟩ := mem_groupOf.mp hkk1g
    have e1 := (keyA kk.1 ta (mem_keys_of_mem hma) hta hva).1
    rw [e1] at hma
    have hinfa : infa = info1 := key_unique hnd hma hmem1
    refine hne ?_
    rw [← hjoba, hinfa]
    exact hjob1

/-- C5 (claim): `apply_precedence_constraint` groups tasks by job, sorts
each group by task id, and for each consecutive pair (`k1` of duration `d1`
followed by `k2`) adds `+penalty` exactly once to the variable-pair entry
for every time pair `(t1, t2)` with `t2 < t1 + d1`, skipping pairs where
either variable index is missing.  The grouping and sorting are the
functions `jobsOf`, `groupOf` and the stable sort in the builder itself; no
totality hypothesis on `var_index` is needed — only the two indices of the
penalized pair must be present, which exhibits the `.get` skip. -/
theorem precedence_characterization (Q : Mat) (v : VarIndex) (tm : TaskMap)
    (T : Nat) (p : ℚ) (hnd : (keys tm).Nodup) (hinj : InjOnKeys v tm T)
    (j k1 k2 : Nat) (info1 : TaskInfo) (t1 t2 i1 i2 : Nat)
    (hadj : (k1, k2) ∈
      adjPairs ((groupOf tm j).insertionSort (fun a b => a ≤ b)))
    (hlk : tm.lookup k1 = some info1)
    (ht1 : t1 < T) (ht2 : t2 < T) (hcond : t2 < t1 + info1.duration)
    (hv1 : v (k1, t1) = some i1) (hv2 : v (k2, t2) = some i2) :
    apply_precedence_constraint Q v tm T p i1 i2 = Q i1 i2 + p := by
  rw [prec_eq_updates, applyUpdates_apply,
    sumAt_usPrec hnd hinj hadj hlk ht1 ht2 hcond hv1 hv2]

/-- Witness instantiating `precedence_characterization` on the concrete
instance: job 0 has the consecutive pair (0, 1); with `d1 = 2` the time
pair `(0, 1)` satisfies `1 < 0 + 2` and is penalized once. -/
theorem precedence_characterization_witness :
    apply_precedence_constraint zeroMat vEx tmEx 3 1 0 4 = zeroMat 0 4 + 1 :=
  precedence_characterization zeroMat vEx tmEx 3 1 (by decide) (by decide)
    0 0 1 ⟨0, 0, 0, 2⟩ 0 1 0 4 (by decide) (by decide) (by decide)
    (by decide) (by decide) (by decide) (by decide)

/-! ### Behaviour on a missing variable index (C2) -/

/-- A variable indexing for 2 tasks and horizon 2 whose `(0, 0)` entry is
absent. -/
def vMiss : VarIndex := fun kt =>
  if kt = (0, 0) then none
  else if kt.1 < 2 ∧ kt.2 < 2 then some (2 * kt.1 + kt.2) else none

/-- C2 counterexample: `tmEx` holds two distinct same-machine tasks and the
pair `(t1, t2) = (0, 1)` lies in the conflict window, so the builder reads
`var_index[(0, 0)]`; that key is absent from `vMiss`, and the builder fails
with a lookup error (`none`) instead of skipping the pair. -/
theorem machine_conflict_missing_counterexample :
    apply_machine_conflict_constraint zeroMat vMiss tmEx 2 1 = none := rfl

/-- C2 (amended): a missing variable index makes the machine-conflict
builder fail with a lookup error rather than skip (its `is not None` test
runs only after the raising subscript); the unique-start and makespan
builders fail likewise, so the unique-start builder is not the only one
that fails; only the precedence builder tolerates missing indices, its
effect being exactly the update list `usPrec`, which accumulates only pairs
whose two lookups succeed. -/
theorem missing_index_behaviour (Q : Mat) (v : VarIndex) (tm : TaskMap)
    (T : Nat) (p : ℚ) (k1 k2 : Nat) (info1 info2 : TaskInfo) (t1 t2 : Nat)
    (h1 : (k1, info1) ∈ tm) (h2 : (k2, info2) ∈ tm) (hne : k1 ≠ k2)
    (hm : info1.machine = info2.machine) (ht1 : t1 < T) (ht2 : t2 < T)
    (hw : 0 < (t2 : Int) - (t1 : Int) ∧
      (t2 : Int) - (t1 : Int) < (info1.duration : Int))
    (hmiss : v (k1, t1) = none ∨ v (k2, t2) = none) :
    apply_machine_conflict_constraint Q v tm T p = none ∧
      (∀ K k t, k < K → t < T → v (k, t) = none →
        apply_unique_start_constraint Q v K T p = none) ∧
      (∀ K k t, k < K → t < T → v (k, t) = none →
        apply_makespan_objective Q v tm K T p = none) ∧
      apply_precedence_constraint Q v tm T p =
        applyUpdates Q (usPrec v tm T p) := by
  refine ⟨?_, ?_, ?_, prec_eq_updates Q v tm T p⟩
  · unfold apply_machine_conflict_constraint
    refine foldlM_none _ _ (k1, info1) h1 (fun Q2 => ?_) Q
    refine foldlM_none _ _ (k2, info2) h2 (fun Q3 => ?_) Q2
    dsimp only
    rw [if_neg hne, if_neg (fun hc => hc hm)]
    refine foldlM_none _ _ t1 (List.mem_range.mpr ht1) (fun Q4 => ?_) Q3
    refine foldlM_none _ _ t2 (List.mem_range.mpr ht2) (fun Q5 => ?_) Q4
    rw [if_pos hw]
    rcases hmiss with hm1 | hm2
    · show (v (k1, t1)).bind _ = none
      rw [hm1]
      rfl
    · show (v (k1, t1)).bind _ = none
      cases hv1 : v (k1, t1) with
      | none => rfl
      | some i1 =>
        rw [Option.some_bind]
        show (v (k2, t2)).bind _ = none
        rw [hm2]
        rfl
  · intro K k t hk ht hmv
    unfold apply_unique_start_constraint
    refine foldlM_none _ _ k (List.mem_range.mpr hk) (fun Q2 => ?_) Q
    refine foldlM_none _ _ t (List.mem_range.mpr ht) (fun Q3 => ?_) Q2
    show (v (k, t)).bind _ = none
    rw [hmv]
    rfl
  · intro K k t hk ht hmv
    unfold apply_makespan_objective
    refine foldlM_none _ _ k (List.mem_range.mpr hk) (fun Q2 => ?_) Q
    show (tm.lookup k).bind _ = none
    cases hl : tm.lookup k with
    | none => rfl
    | some info =>
      rw [Option.some_bind]
      refine foldlM_none _ _ t (List.mem_range.mpr ht) (fun Q3 => ?_) Q2
      show (v (k, t)).bind _ = none
      rw [hmv]
      rfl

/-- Witness instantiating `missing_index_behaviour` on the concrete
instance with the `(0, 0)` index absent. -/
theorem missing_index_behaviour_witness :
    apply_machine_conflict_constraint zeroMat vMiss tmEx 2 1 = none ∧
      (∀ K k t, k < K → t < 2 → vMiss (k, t) = none →
        apply_unique_start_constraint zeroMat vMiss K 2 1 = none) ∧
      (∀ K k t, k < K → t < 2 → vMiss (k, t) = none →
        apply_makespan_objective zeroMat vMiss tmEx K 2 1 = none) ∧
      apply_precedence_constraint zeroMat vMiss tmEx 2 1 =
        applyUpdates zeroMat (usPrec vMiss tmEx 2 1) :=
  missing_index_behaviour zeroMat vMiss tmEx 2 1 0 1 ⟨0, 0, 0, 2⟩
    ⟨0, 1, 0, 1⟩ 0 1 (by decide) (by decide) (by decide) (by decide)
    (by decide) (by decide) (by decide) (Or.inl (by decide))

/-! ### Order irrelevance of the four passes (C9) -/

/-- The four builder passes of `solve_and_visualize_jssp` as matrix
transformers in the `Option` monad (the pure precedence pass lifted by
`some`), numbered in program order: unique-start, machine-conflict,
precedence, makespan. -/
def builderPass (v : VarIndex) (tm : TaskMap) (K T : Nat)
    (p1 p2 p3 p4 : ℚ) : Fin 4 → Mat → Option Mat := fun i Q =>
  match i with
  | 0 => apply_unique_start_constraint Q v K T p1
  | 1 => apply_machine_conflict_constraint Q v tm T p2
  | 2 => some (apply_precedence_constraint Q v tm T p3)
  | 3 => apply_makespan_objective Q v tm K T p4

/-- The update lists of the four passes, in the same numbering. -/
def usPass (v : VarIndex) (tm : TaskMap) (K T : Nat) (p1 p2 p3 p4 : ℚ) :
    Fin 4 → List Update := fun i =>
  match i with
  | 0 => usUnique v K T p1
  | 1 => usMachine v tm T p2
  | 2 => usPrec v tm T p3
  | 3 => usMakespan v tm K T p4

/-- Run the four passes sequentially in the order given by `σ` (a raised
error aborts the chain, as in Python). -/
def runOrder (f : Fin 4 → Mat → Option Mat) (σ : Equiv.Perm (Fin 4))
    (Q : Mat) : Option Mat :=
  (((f (σ 0) Q).bind (f (σ 1))).bind (f (σ 2))).bind (f (σ 3))

/-- C9 (claim): applying the four QUBO builders to the same zero matrix in
any order yields the same final coefficient matrix, because every builder
only adds contributions to entries and never overwrites them.  Stated for
index mappings defined on all iterated candidates (so that no pass raises,
which would abort the chain). -/
theorem builder_order_irrelevant (v : VarIndex) (tm : TaskMap) (K T : Nat)
    (p1 p2 p3 p4 : ℚ) (htot : TotalOn v K T) (htotk : TotalOnKeys v tm T)
    (hlk : ∀ k, k < K → (tm.lookup k).isSome) (σ : Equiv.Perm (Fin 4)) :
    runOrder (builderPass v tm K T p1 p2 p3 p4) σ zeroMat =
      runOrder (builderPass v tm K T p1 p2 p3 p4) (Equiv.refl (Fin 4))
        zeroMat := by
  have hpass : ∀ (i : Fin 4) (Q2 : Mat),
      builderPass v tm K T p1 p2 p3 p4 i Q2 =
        some (applyUpdates Q2 (usPass v tm K T p1 p2 p3 p4 i)) := by
    intro i Q2
    fin_cases i
    · exact unique_eq_updates Q2 v K T p1 htot
    · exact machine_eq_updates Q2 v tm T p2 htotk
    · exact congrArg some (prec_eq_updates Q2 v tm T p3)
    · exact makespan_eq_updates Q2 v tm K T p4 htot hlk
  have hrun : ∀ σ2 : Equiv.Perm (Fin 4),
      runOrder (builderPass v tm K T p1 p2 p3 p4) σ2 zeroMat =
        some (applyUpdates zeroMat
          (((usPass v tm K T p1 p2 p3 p4 (σ2 0) ++
             usPass v tm K T p1 p2 p3 p4 (σ2 1)) ++
             usPass v tm K T p1 p2 p3 p4 (σ2 2)) ++
             usPass v tm K T p1 p2 p3 p4 (σ2 3))) := by
    intro σ2
    unfold runOrder
    rw [hpass (σ2 0), Option.some_bind, hpass (σ2 1), Option.some_bind,
      hpass (σ2 2), Option.some_bind, hpass (σ2 3), applyUpdates_append2,
      applyUpdates_append2, applyUpdates_append2]
    simp [List.append_assoc]
  rw [hrun σ, hrun (Equiv.refl (Fin 4))]
  refine congrArg some ?_
  funext a b
  rw [applyUpdates_apply, applyUpdates_apply, sumAt_append, sumAt_append,
    sumAt_append, sumAt_append, sumAt_append, sumAt_append]
  have h4 := Equiv.sum_comp σ
    (fun i => sumAt (usPass v tm K T p1 p2 p3 p4 i) a b)
  rw [Fin.sum_univ_four, Fin.sum_univ_four] at h4
  simp only [Equiv.refl_apply]
  rw [h4]

/-- Witness instantiating `builder_order_irrelevant` on the concrete
instance with the order that swaps the first two passes. -/
theorem builder_order_irrelevant_witness :
    runOrder (builderPass vEx tmEx 2 3 1 1 1 1) (Equiv.swap 0 1) zeroMat =
      runOrder (builderPass vEx tmEx 2 3 1 1 1 1) (Equiv.refl (Fin 4))
        zeroMat :=
  builder_order_irrelevant vEx tmEx 2 3 1 1 1 1 (by decide) (by decide)
    (by decide) (Equiv.swap 0 1)

/-! ### Schedule extraction (C1) -/

/-- The records selected by `extract_schedule_from_result` before sorting:
one per `(task, time)` candidate whose rounded assignment equals 1, in scan
order (tasks outermost, times in increasing order). -/
def selectedRecords (result : Nat → ℚ) (v : VarIndex) (tm : TaskMap)
    (K T : Nat) : List SchedRec :=
  (List.range K).flatMap (fun k =>
    (List.range T).flatMap (fun t =>
      if pyRound (result (vIdx v k t)) = 1 then
        [mkRec k t ((tm.lookup k).getD default)]
      else []))

/-- When every candidate has a variable index and every task below
`num_tasks` is in `task_map`, extraction succeeds and returns the selected
records sorted (stably) by start time. -/
theorem extract_eq (result : Nat → ℚ) (v : VarIndex) (tm : TaskMap)
    (K T : Nat) (htot : TotalOn v K T)
    (hlk : ∀ k, k < K → (tm.lookup k).isSome) :
    extract_schedule_from_result result v tm K T =
      some ((selectedRecords result v tm K T).insertionSort
        (fun a b => a.start ≤ b.start)) := by
  unfold extract_schedule_from_result selectedRecords
  have hfold : (List.range K).foldlM (fun sched k =>
      (List.range T).foldlM (fun sched t => do
        let idx ← v (k, t)
        if pyRound (result idx) = 1 then do
          let info ← tm.lookup k
          pure (sched ++ [mkRec k t info])
        else pure sched) sched) ([] : List SchedRec) =
      some ((List.range K).flatMap (fun k =>
        (List.range T).flatMap (fun t =>
          if pyRound (result (vIdx v k t)) = 1 then
            [mkRec k t ((tm.lookup k).getD default)]
          else []))) := by
    refine foldlM_collect (fun (s us : List SchedRec) => s ++ us)
      (fun s a b => List.append_assoc s a b) List.append_nil
      (List.range K) _ (fun k => (List.range T).flatMap (fun t =>
        if pyRound (result (vIdx v k t)) = 1 then
          [mkRec k t ((tm.lookup k).getD default)]
        else [])) ?_ []
    intro s k hk
    rw [List.mem_range] at hk
    refine foldlM_collect (fun (s us : List SchedRec) => s ++ us)
      (fun s a b => List.append_assoc s a b) List.append_nil
      (List.range T) _ (fun t =>
        if pyRound (result (vIdx v k t)) = 1 then
          [mkRec k t ((tm.lookup k).getD default)]
        else []) ?_ s
    intro s2 t ht
    rw [List.mem_range] at ht
    obtain ⟨i, hi⟩ := Option.isSome_iff_exists.mp (htot k hk t ht)
    show (v (k, t)).bind _ = _
    rw [hi, Option.some_bind]
    beta_reduce
    rw [vIdx_of_some hi]
    by_cases hr : pyRound (result i) = 1
    · rw [if_pos hr, if_pos hr]
      obtain ⟨info, hinfo⟩ := Option.isSome_iff_exists.mp (hlk k hk)
      show (tm.lookup k).bind _ = _
      rw [hinfo, Option.some_bind, Option.getD_some]
      rfl
    · rw [if_neg hr, if_neg hr, List.append_nil]
      rfl
  show _ >>= _ = _
  rw [hfold]
  rfl

/-- A constant all-ones assignment vector. -/
def resOnes : Nat → ℚ := fun _ => 1

/-- C1 counterexample: with an assignment whose entries all round to 1, the
extractor emits one record per selected `(task, time)` pair — task 0
appears 3 times in the schedule, not exactly once, because the scan has no
break after the first selected start. -/
theorem extract_multiple_counterexample :
    (extract_schedule_from_result resOnes vEx tmEx 2 3).map
      (fun s => s.countP (fun r => r.task = 0)) = some 3 := by
  rw [extract_eq resOnes vEx tmEx 2 3 (by decide) (by decide)]
  have h1 : ∀ x : Nat, pyRound (resOnes x) = 1 := fun x => by
    norm_num [pyRound, resOnes]
  simp only [selectedRecords, h1]
  decide

/-- C1 (amended): for every assignment vector, the extractor scans each
task's candidate start times in increasing order and emits one record for
every start whose rounded assignment equals 1 (a task with several selected
starts appears several times); the returned schedule is sorted by start
time.  Stated for index mappings defined on all candidates and a `task_map`
holding every task (otherwise the Python code raises). -/
theorem extract_characterization (result : Nat → ℚ) (v : VarIndex)
    (tm : TaskMap) (K T : Nat) (htot : TotalOn v K T)
    (hlk : ∀ k, k < K → (tm.lookup k).isSome) :
    ∃ s, extract_schedule_from_result result v tm K T = some s ∧
      s.Pairwise (fun r1 r2 => r1.start ≤ r2.start) ∧
      s.Perm (selectedRecords result v tm K T) := by
  refine ⟨_, extract_eq result v tm K T htot hlk, ?_, ?_⟩
  · haveI : IsTotal SchedRec (fun a b => a.start ≤ b.start) :=
      ⟨fun a b => Nat.le_total a.start b.start⟩
    haveI : IsTrans SchedRec (fun a b => a.start ≤ b.start) :=
      ⟨fun a b c h1 h2 => le_trans h1 h2⟩
    exact List.sorted_insertionSort _ _
  · exact List.perm_insertionSort _ _

/-- Witness instantiating `extract_characterization` on the concrete
instance. -/
theorem extract_characterization_witness :
    ∃ s, extract_schedule_from_result resOnes vEx tmEx 2 3 = some s ∧
      s.Pairwise (fun r1 r2 => r1.start ≤ r2.start) ∧
      s.Perm (selectedRecords resOnes vEx tmEx 2 3) :=
  extract_characterization resOnes vEx tmEx 2 3 (by decide) (by decide)

/-! ### Validators (C7, C8, C10) -/

/-- Two half-open interval records overlap. -/
def overlaps (r1 r2 : SchedRec) : Prop :=
  r1.start < r2.end_ ∧ r2.start < r1.end_

instance (r1 r2 : SchedRec) : Decidable (overlaps r1 r2) := by
  unfold overlaps
  infer_instance

theorem foldl_max_le_init (e : Nat) (es : List Nat) : e ≤ es.foldl max e := by
  induction es generalizing e with
  | nil => exact le_refl e
  | cons x xs ih => exact le_trans (Nat.le_max_left e x) (ih (max e x))

theorem foldl_max_ge_mem {x : Nat} :
    ∀ {es : List Nat}, x ∈ es → ∀ e : Nat, x ≤ es.foldl max e := by
  intro es
  induction es with
  | nil =>
    intro hx
    cases hx
  | cons y ys ih =>
    intro hx e
    rcases List.mem_cons.mp hx with rfl | hm
    · exact le_trans (Nat.le_max_right e x) (foldl_max_le_init (max e x) ys)
    · exact ih hm (max e y)

theorem foldl_max_mem (e : Nat) (es : List Nat) :
    es.foldl max e = e ∨ es.foldl max e ∈ es := by
  induction es generalizing e with
  | nil => exact Or.inl rfl
  | cons x xs ih =>
    rcases ih (max e x) with h | h
    · rcases max_choice e x with h2 | h2
      · refine Or.inl ?_
        show List.foldl max (max e x) xs = e
        rw [h, h2]
      · refine Or.inr ?_
        show List.foldl max (max e x) xs ∈ x :: xs
        rw [h, h2]
        exact List.mem_cons_self x xs
    · exact Or.inr (List.mem_cons_of_mem x h)

/-- C7 (claim): `compute_makespan` returns the maximum end time over every
non-empty schedule — an upper bound on all ends that is itself one of the
ends (e.g. 7 for ends 4, 7, 5) — and errors (`none`, modelling the
`ValueError` of `max` on an empty sequence) on an empty schedule. -/
theorem compute_makespan_spec (s : List SchedRec) (hne : s ≠ []) :
    (∃ m, compute_makespan s = some m ∧ (∀ r ∈ s, r.end_ ≤ m) ∧
      m ∈ s.map (fun r => r.end_)) ∧
    compute_makespan ([] : List SchedRec) = none ∧
    compute_makespan
      [⟨0, 0, 0, 0, 0, 4, 4⟩, ⟨1, 0, 1, 0, 3, 4, 7⟩, ⟨2, 0, 2, 1, 1, 4, 5⟩] =
      some 7 := by
  refine ⟨?_, rfl, by decide⟩
  cases hs : s.map (fun r => r.end_) with
  | nil => exact absurd (List.map_eq_nil_iff.mp hs) hne
  | cons e es =>
    refine ⟨es.foldl max e, ?_, ?_, ?_⟩
    · unfold compute_makespan
      rw [hs]
    · intro r hr
      have hmm : r.end_ ∈ s.map (fun r => r.end_) := List.mem_map_of_mem _ hr
      rw [hs] at hmm
      rcases List.mem_cons.mp hmm with he | hm
      · rw [he]
        exact foldl_max_le_init e es
      · exact foldl_max_ge_mem hm e
    · rcases foldl_max_mem e es with h | h
      · rw [h]
        exact List.mem_cons_self e es
      · exact List.mem_cons_of_mem e h

/-- Witness instantiating `compute_makespan_spec` on the schedule with ends
4, 7, 5. -/
theorem compute_makespan_spec_witness :
    (∃ m, compute_makespan
        [⟨0, 0, 0, 0, 0, 4, 4⟩, ⟨1, 0, 1, 0, 3, 4, 7⟩, ⟨2, 0, 2, 1, 1, 4, 5⟩] =
        some m ∧
      (∀ r ∈ ([⟨0, 0, 0, 0, 0, 4, 4⟩, ⟨1, 0, 1, 0, 3, 4, 7⟩,
        ⟨2, 0, 2, 1, 1, 4, 5⟩] : List SchedRec), r.end_ ≤ m) ∧
      m ∈ ([⟨0, 0, 0, 0, 0, 4, 4⟩, ⟨1, 0, 1, 0, 3, 4, 7⟩,
        ⟨2, 0, 2, 1, 1, 4, 5⟩] : List SchedRec).map (fun r => r.end_)) ∧
    compute_makespan ([] : List SchedRec) = none ∧
    compute_makespan
      [⟨0, 0, 0, 0, 0, 4, 4⟩, ⟨1, 0, 1, 0, 3, 4, 7⟩, ⟨2, 0, 2, 1, 1, 4, 5⟩] =
      some 7 :=
  compute_makespan_spec _ (by decide)

/-- The conflicts reported for one machine id. -/
def conflictsForMachine (schedule : List SchedRec) (m : Nat) :
    List (SchedRec × SchedRec) :=
  (adjPairs ((schedule.filter (fun t => t.machine = m)).insertionSort
    (fun a b => a.start ≤ b.start))).filter (fun pr => pr.2.start < pr.1.end_)

theorem check_machine_conflicts_eq (s : List SchedRec) :
    check_machine_conflicts s =
      conflictsForMachine s 0 ++ conflictsForMachine s 1 := by
  unfold check_machine_conflicts conflictsForMachine
  show ([] ++ _) ++ _ = _
  rw [List.nil_append]

/-- The violations reported for one job id. -/
def violationsForJob (s : List SchedRec) (j : Nat) :
    List (SchedRec × SchedRec) :=
  (adjPairs ((s.filter (fun t => t.job = j)).insertionSort
    (fun a b => a.taskIdx ≤ b.taskIdx))).filter
    (fun pr => pr.2.start < pr.1.end_)

theorem foldl_append_collect {α β : Type} (l : List α) (g : α → List β)
    (acc : List β) :
    l.foldl (fun acc x => acc ++ g x) acc = acc ++ l.flatMap g := by
  induction l generalizing acc with
  | nil => rw [List.foldl_nil, List.flatMap_nil, List.append_nil]
  | cons x xs ih =>
    rw [List.foldl_cons, ih, List.flatMap_cons, List.append_assoc]

theorem check_precedence_violations_eq (s : List SchedRec) :
    check_precedence_violations s =
      (dedupFirst (s.map (fun t => t.job))).flatMap (violationsForJob s) := by
  unfold check_precedence_violations violationsForJob
  rw [foldl_append_collect, List.nil_append]

theorem flatMap_eq_nil_of {α β : Type} (l : List α) (g : α → List β)
    (h : ∀ x ∈ l, g x = []) : l.flatMap g = [] := by
  induction l with
  | nil => rfl
  | cons x xs ih =>
    rw [List.flatMap_cons, h x (List.mem_cons_self x xs), List.nil_append]
    exact ih (fun y hy => h y (List.mem_cons_of_mem x hy))

theorem mem_conflictsForMachine {s : List SchedRec} {m : Nat}
    {pr : SchedRec × SchedRec} (h : pr ∈ conflictsForMachine s m) :
    (pr.1 ∈ s ∧ pr.1.machine = m) ∧ (pr.2 ∈ s ∧ pr.2.machine = m) ∧
      pr.2.start < pr.1.end_ := by
  unfold conflictsForMachine at h
  have h1 := List.mem_of_mem_filter h
  have hflag := List.of_mem_filter h
  have h2 := mem_of_mem_adjPairs h1
  have h31 := (List.perm_insertionSort _ _).mem_iff.mp h2.1
  have h32 := (List.perm_insertionSort _ _).mem_iff.mp h2.2
  obtain ⟨h41, h42⟩ := List.mem_filter.mp h31
  obtain ⟨h51, h52⟩ := List.mem_filter.mp h32
  exact ⟨⟨h41, of_decide_eq_true h42⟩, ⟨h51, of_decide_eq_true h52⟩,
    of_decide_eq_true hflag⟩

/-- On a schedule of positive-duration records with no two same-machine
records overlapping, no machine reports a conflict. -/
theorem conflictsForMachine_eq_nil {s : List SchedRec} {m : Nat}
    (hdur : ∀ r ∈ s, r.start < r.end_)
    (hm : s.Pairwise (fun r1 r2 => r1.machine = r2.machine →
      ¬ overlaps r1 r2)) :
    conflictsForMachine s m = [] := by
  unfold conflictsForMachine
  rw [List.filter_eq_nil_iff]
  intro pr hpr
  have hmem := mem_of_mem_adjPairs hpr
  have hmem1 := (List.perm_insertionSort _ _).mem_iff.mp hmem.1
  have hmem2 := (List.perm_insertionSort _ _).mem_iff.mp hmem.2
  obtain ⟨hs1, hmach1⟩ := List.mem_filter.mp hmem1
  obtain ⟨hs2, hmach2⟩ := List.mem_filter.mp hmem2
  haveI : IsTotal SchedRec (fun a b => a.start ≤ b.start) :=
    ⟨fun a b => Nat.le_total a.start b.start⟩
  haveI : IsTrans SchedRec (fun a b => a.start ≤ b.start) :=
    ⟨fun a b c h1 h2 => le_trans h1 h2⟩
  have hsorted := List.sorted_insertionSort
    (fun a b : SchedRec => a.start ≤ b.start)
    (s.filter (fun t => t.machine = m))
  have hle : pr.1.start ≤ pr.2.start := adjPairs_rel hsorted hpr
  have hRfilter : (s.filter (fun t => t.machine = m)).Pairwise
      (fun r1 r2 => r1.machine = r2.machine → ¬ overlaps r1 r2) :=
    List.Pairwise.sublist (List.filter_sublist s) hm
  have hsymm : ∀ {x y : SchedRec},
      (x.machine = y.machine → ¬ overlaps x y) →
      (y.machine = x.machine → ¬ overlaps y x) :=
    fun hxy he hov => hxy he.symm ⟨hov.2, hov.1⟩
  have hRsorted := (List.Perm.pairwise_iff hsymm
    (List.perm_insertionSort (fun a b : SchedRec => a.start ≤ b.start)
      (s.filter (fun t => t.machine = m)))).mpr hRfilter
  have hR := adjPairs_rel hRsorted hpr
  have hm1 : pr.1.machine = m := of_decide_eq_true hmach1
  have hm2 : pr.2.machine = m := of_decide_eq_true hmach2
  simp only [decide_eq_true_eq]
  intro hflag
  exact hR (hm1.trans hm2.symm)
    ⟨lt_of_le_of_lt hle (hdur pr.2 hs2), hflag⟩

/-- On a schedule where, within each job, the task with the smaller
`task_idx` always ends no later than the other starts (and task indices are
unique per job), no job reports a violation. -/
theorem violationsForJob_eq_nil {s : List SchedRec} {j : Nat}
    (hjd : s.Pairwise (fun r1 r2 => r1.job = r2.job →
      r1.taskIdx ≠ r2.taskIdx))
    (hord : ∀ r1 ∈ s, ∀ r2 ∈ s, r1.job = r2.job →
      r1.taskIdx < r2.taskIdx → r1.end_ ≤ r2.start) :
    violationsForJob s j = [] := by
  unfold violationsForJob
  rw [List.filter_eq_nil_iff]
  intro pr hpr
  have hmem := mem_of_mem_adjPairs hpr
  have hmem1 := (List.perm_insertionSort _ _).mem_iff.mp hmem.1
  have hmem2 := (List.perm_insertionSort _ _).mem_iff.mp hmem.2
  obtain ⟨hs1, hj1⟩ := List.mem_filter.mp hmem1
  obtain ⟨hs2, hj2⟩ := List.mem_filter.mp hmem2
  haveI : IsTotal SchedRec (fun a b => a.taskIdx ≤ b.taskIdx) :=
    ⟨fun a b => Nat.le_total a.taskIdx b.taskIdx⟩
  haveI : IsTrans SchedRec (fun a b => a.taskIdx ≤ b.taskIdx) :=
    ⟨fun a b c h1 h2 => le_trans h1 h2⟩
  have hsorted := List.sorted_insertionSort
    (fun a b : SchedRec => a.taskIdx ≤ b.taskIdx)
    (s.filter (fun t => t.job = j))
  have hle : pr.1.taskIdx ≤ pr.2.taskIdx := adjPairs_rel hsorted hpr
  have hRfilter : (s.filter (fun t => t.job = j)).Pairwise
      (fun r1 r2 => r1.job = r2.job → r1.taskIdx ≠ r2.taskIdx) :=
    List.Pairwise.sublist (List.filter_sublist s) hjd
  have hsymm : ∀ {x y : SchedRec},
      (x.job = y.job → x.taskIdx ≠ y.taskIdx) →
      (y.job = x.job → y.taskIdx ≠ x.taskIdx) :=
    fun hxy he hne => hxy he.symm hne.symm
  have hRsorted := (List.Perm.pairwise_iff hsymm
    (List.perm_insertionSort (fun a b : SchedRec => a.taskIdx ≤ b.taskIdx)
      (s.filter (fun t => t.job = j)))).mpr hRfilter
  have hne := adjPairs_rel hRsorted hpr
  have hjob : pr.1.job = pr.2.job :=
    (of_decide_eq_true hj1).trans (of_decide_eq_true hj2).symm
  have hlt : pr.1.taskIdx < pr.2.taskIdx := lt_of_le_of_ne hle (hne hjob)
  simp only [decide_eq_true_eq]
  intro hflag
  have := hord pr.1 hs1 pr.2 hs2 hjob hlt
  omega

/-- Task A: machine 0, start 0, duration 3; task B: machine 0, start 1,
duration 2 — the concrete machine-conflict scenario of the spec. -/
def recA : SchedRec := ⟨0, 0, 0, 0, 0, 3, 3⟩

/-- Task B of the concrete machine-conflict scenario. -/
def recB : SchedRec := ⟨1, 1, 0, 0, 1, 2, 3⟩

/-- Job-0 operation 0 at `[5, 7)` and operation 1 at `[0, 1)`: disjoint
intervals, but the successor starts before the predecessor ends. -/
def recP0 : SchedRec := ⟨0, 0, 0, 0, 5, 2, 7⟩

/-- The second record of the out-of-order precedence example. -/
def recP1 : SchedRec := ⟨1, 0, 1, 1, 0, 1, 1⟩

/-- C8 counterexample: the schedule `[recP0, recP1]` contains no two
overlapping intervals at all (so in particular none within the same job),
yet `check_precedence_violations` returns the pair, not the empty list: the
validator flags ordering, not interval overlap. -/
theorem precedence_nonoverlap_counterexample :
    List.Pairwise (fun r1 r2 => ¬ overlaps r1 r2) [recP0, recP1] ∧
      check_precedence_violations [recP0, recP1] = [(recP0, recP1)] := by
  constructor
  · decide
  · decide

/-- C8 (amended): `check_machine_conflicts` returns the empty list on every
positive-duration schedule with no same-machine overlap;
`check_precedence_violations` returns the empty list on every schedule in
which, within each job, the task with the smaller `task_idx` ends no later
than the other starts (interval disjointness alone is not enough: the
check is about order); and the concrete two-task same-machine scenario
(durations 3 and 2, starts 0 and 1) is flagged with exactly the overlapping
pair. -/
theorem validators_clean_and_conflict (s : List SchedRec)
    (hdur : ∀ r ∈ s, r.start < r.end_)
    (hm : s.Pairwise (fun r1 r2 => r1.machine = r2.machine →
      ¬ overlaps r1 r2))
    (hjd : s.Pairwise (fun r1 r2 => r1.job = r2.job →
      r1.taskIdx ≠ r2.taskIdx))
    (hord : ∀ r1 ∈ s, ∀ r2 ∈ s, r1.job = r2.job →
      r1.taskIdx < r2.taskIdx → r1.end_ ≤ r2.start) :
    check_machine_conflicts s = [] ∧ check_precedence_violations s = [] ∧
      check_machine_conflicts [recA, recB] = [(recA, recB)] := by
  refine ⟨?_, ?_, by decide⟩
  · rw [check_machine_conflicts_eq, conflictsForMachine_eq_nil hdur hm,
      conflictsForMachine_eq_nil hdur hm, List.append_nil]
  · rw [check_precedence_violations_eq]
    exact flatMap_eq_nil_of _ _ (fun j _ => violationsForJob_eq_nil hjd hord)

/-- A clean schedule: one job, two sequential tasks on machine 0. -/
def sClean : List SchedRec := [⟨0, 0, 0, 0, 0, 2, 2⟩, ⟨1, 0, 1, 0, 2, 1, 3⟩]

/-- Witness instantiating `validators_clean_and_conflict` on `sClean`. -/
theorem validators_clean_and_conflict_witness :
    check_machine_conflicts sClean = [] ∧
      check_precedence_violations sClean = [] ∧
      check_machine_conflicts [recA, recB] = [(recA, recB)] :=
  validators_clean_and_conflict sClean (by decide) (by decide) (by decide)
    (by decide)

/-- A machine-2 overlapping pair: examined by no iteration of the machine
loop `{0, 1}`. -/
def recM2a : SchedRec := ⟨0, 0, 0, 2, 0, 3, 3⟩

/-- The second machine-2 record. -/
def recM2b : SchedRec := ⟨1, 1, 0, 2, 1, 2, 3⟩

/-- C10 (claim): `check_machine_conflicts` examines only machines 0 and 1:
every reported pair has both records on the same machine, 0 or 1, and
overlapping tasks on any other machine id are never reported — exhibited by
the machine-2 overlap that yields no conflicts. -/
theorem machine_conflicts_only_machines01 (s : List SchedRec)
    (pr : SchedRec × SchedRec) (hmem : pr ∈ check_machine_conflicts s) :
    (pr.1.machine = 0 ∨ pr.1.machine = 1) ∧ pr.2.machine = pr.1.machine ∧
      check_machine_conflicts [recM2a, recM2b] = [] := by
  rw [check_machine_conflicts_eq] at hmem
  rcases List.mem_append.mp hmem with h | h
  · obtain ⟨⟨-, h1⟩, ⟨-, h2⟩, -⟩ := mem_conflictsForMachine h
    exact ⟨Or.inl h1, h2.trans h1.symm, by decide⟩
  · obtain ⟨⟨-, h1⟩, ⟨-, h2⟩, -⟩ := mem_conflictsForMachine h
    exact ⟨Or.inr h1, h2.trans h1.symm, by decide⟩

/-- Witness instantiating `machine_conflicts_only_machines01` on the
concrete conflicting schedule `[recA, recB]`. -/
theorem machine_conflicts_only_machines01_witness :
    (((recA, recB) : SchedRec × SchedRec).1.machine = 0 ∨
      ((recA, recB) : SchedRec × SchedRec).1.machine = 1) ∧
      ((recA, recB) : SchedRec × SchedRec).2.machine =
        ((recA, recB) : SchedRec × SchedRec).1.machine ∧
      check_machine_conflicts [recM2a, recM2b] = [] :=
  machine_conflicts_only_machines01 [recA, recB] (recA, recB) (by decide)

/-- Witness instantiating `unique_start_characterization` on the concrete
instance. -/
theorem unique_start_characterization_witness :
    ∃ M, apply_unique_start_constraint zeroMat vEx 2 3 1 = some M ∧
      (∀ k t i, k < 2 → t < 3 → vEx (k, t) = some i → M i i = zeroMat i i - 1) ∧
      (∀ k t1 t2 i1 i2, k < 2 → t1 < t2 → t2 < 3 → vEx (k, t1) = some i1 →
        vEx (k, t2) = some i2 → M i1 i2 = zeroMat i1 i2 + 1) :=
  unique_start_characterization zeroMat vEx 2 3 1 (by decide) (by decide)

end JSSP
